import Mathlib

/-!
Verification development for the letscatchup collaborative meeting planner.

The backend's session engine (`SessionManager.ts`, `tagValidation.ts`,
`userUtils.ts`, `session.ts` routes, `sessionSocket.ts`) is shallowly embedded
below.  JavaScript strings are modeled as Lean `String`s (lists of `Char`s);
`String.prototype.toLowerCase` is modeled on the ASCII range and the regex
class `\s` by the common JavaScript whitespace code points.  JavaScript `Map`s
(which preserve insertion order and overwrite on `set` of an existing key) are
modeled as lists with an upsert operation.  Randomly generated identifiers
(`uuid`-based user/keyword ids, random 3-digit user codes) are modeled as
explicit parameters of the operations; the generators' uniqueness guarantees
become hypotheses where a proof needs them.  Wall-clock time is an explicit
`Nat` parameter.
-/

namespace LetsCatchup

/-! Character-level model of the JavaScript string primitives used by
`tagValidation.ts` and `userUtils.ts`. -/

/-- Model of the JS regex class `\s` (and the character set trimmed by
`String.prototype.trim`): ASCII whitespace, NBSP, the Unicode line
separators, and the BOM. -/
def jsIsSpace (c : Char) : Bool :=
  c.toNat = 32 || c.toNat = 9 || c.toNat = 10 || c.toNat = 11 || c.toNat = 12 ||
  c.toNat = 13 || c.toNat = 160 || c.toNat = 8232 || c.toNat = 8233 || c.toNat = 65279

/-- Model of `String.prototype.toLowerCase`, restricted to the ASCII range
(the only range relevant after tag characters are filtered to `[a-zA-Z-]`). -/
def jsToLower (c : Char) : Char :=
  if 65 ≤ c.toNat ∧ c.toNat ≤ 90 then Char.ofNat (c.toNat + 32) else c

/-- Characters kept by the tag filter `replace(/[^a-zA-Z-]/g, '')`. -/
def isTagChar (c : Char) : Bool :=
  (97 ≤ c.toNat && c.toNat ≤ 122) || (65 ≤ c.toNat && c.toNat ≤ 90) || c.toNat = 45

/-- ASCII letter, as matched by `[a-zA-Z]`. -/
def isAsciiLetterB (c : Char) : Bool :=
  (97 ≤ c.toNat && c.toNat ≤ 122) || (65 ≤ c.toNat && c.toNat ≤ 90)

/-- Drop the longest suffix of characters satisfying `p`
(used for the right half of `trim` and of the edge-hyphen strip). -/
def dropTrailingWhile (p : Char → Bool) : List Char → List Char
  | [] => []
  | c :: cs =>
    match dropTrailingWhile p cs with
    | [] => if p c then [] else [c]
    | r => c :: r

/-- Model of `String.prototype.trim`. -/
def trimList (l : List Char) : List Char :=
  dropTrailingWhile jsIsSpace (l.dropWhile jsIsSpace)

/-- Model of `replace(/\s+/g, '-')`: each maximal run of whitespace becomes a
single hyphen. -/
def replaceWs : List Char → List Char
  | [] => []
  | [c] => if jsIsSpace c then ['-'] else [c]
  | a :: b :: rest =>
    if jsIsSpace a && jsIsSpace b then replaceWs (b :: rest)
    else (if jsIsSpace a then '-' else a) :: replaceWs (b :: rest)

/-- Model of the hyphen-run collapse (regex `-+` to a single `-`). -/
def collapseHyphens : List Char → List Char
  | [] => []
  | [c] => [c]
  | a :: b :: rest =>
    if a == '-' && b == '-' then collapseHyphens (b :: rest)
    else a :: collapseHyphens (b :: rest)

/-- Whether the text contains two adjacent hyphens (`includes('--')`). -/
def hasDoubleHyphen : List Char → Bool
  | [] => false
  | [_] => false
  | a :: b :: rest => (a == '-' && b == '-') || hasDoubleHyphen (b :: rest)

/-- Model of `split('-')` on a JS string (always returns at least one part). -/
def splitHyphen : List Char → List (List Char)
  | [] => [[]]
  | c :: cs =>
    match splitHyphen cs with
    | [] => [[]]
    | s :: ss => if c == '-' then [] :: s :: ss else (c :: s) :: ss

/-- Model of `join('-')` on a list of parts. -/
def joinHyphen : List (List Char) → List Char
  | [] => []
  | [s] => s
  | s :: rest => s ++ '-' :: joinHyphen rest

/-- Strip leading and trailing hyphens (the edge-hyphen regex replace). -/
def stripHyphens (l : List Char) : List Char :=
  dropTrailingWhile (· == '-') (l.dropWhile (· == '-'))

/-- Number of hyphens in the text (the length of the `-` match list). -/
def hyphenCount (l : List Char) : Nat :=
  (l.filter (· == '-')).length

/-- Whether the text matches `^[a-zA-Z]+(-[a-zA-Z]+)*$`: every
hyphen-separated segment is a nonempty run of ASCII letters. -/
def matchesTagPattern (l : List Char) : Bool :=
  (splitHyphen l).all (fun seg => !seg.isEmpty && seg.all isAsciiLetterB)

/-- `normalizeTag` from `tagValidation.ts`, on character lists:
trim, lowercase, whitespace runs to hyphens, strip disallowed characters,
collapse hyphens, strip edge hyphens, keep the first three segments. -/
def normalizeTagList (l : List Char) : List Char :=
  joinHyphen
    ((splitHyphen
        (stripHyphens
          (collapseHyphens
            (List.filter isTagChar
              (replaceWs ((trimList l).map jsToLower)))))).take 3)

/-- `normalizeTag` from `tagValidation.ts`. -/
def normalizeTag (s : String) : String :=
  String.mk (normalizeTagList s.data)

/-- Result record of `validateTag` (`TagValidationResult` in
`tagValidation.ts`). -/
structure TagValidationResult where
  isValid : Bool
  error : Option String
  suggestion : Option String
deriving DecidableEq

/-- `validateTag` from `tagValidation.ts`: the format checks, in source
order, each with its error message and suggested correction. -/
def validateTag (text : String) : TagValidationResult :=
  if (trimList text.data).isEmpty then
    ⟨false, some "Tag cannot be empty", none⟩
  else
    let trimmed := trimList text.data
    if trimmed.contains ' ' then
      ⟨false, some "Tags cannot contain spaces",
        some (String.mk ((replaceWs trimmed).map jsToLower))⟩
    else if 2 < hyphenCount trimmed then
      ⟨false, some "Tags can have maximum 2 hyphens (3 words)",
        some (String.mk ((joinHyphen ((splitHyphen trimmed).take 3)).map jsToLower))⟩
    else if !matchesTagPattern trimmed then
      ⟨false, some "Tags can only contain letters and hyphens",
        some (String.mk ((trimmed.filter isTagChar).map jsToLower))⟩
    else if hasDoubleHyphen trimmed then
      ⟨false, some "Tags cannot have consecutive hyphens",
        some (String.mk ((collapseHyphens trimmed).map jsToLower))⟩
    else if trimmed.head? == some '-' || trimmed.getLast? == some '-' then
      ⟨false, some "Tags cannot start or end with hyphens",
        some (String.mk ((stripHyphens trimmed).map jsToLower))⟩
    else
      ⟨true, none, none⟩

/-! Data model (`models/types.ts`). -/

/-- `CategoryType`. -/
inductive Category
  | time
  | location
  | food
  | activity
deriving DecidableEq

/-- `SessionStatus` (only `active` is ever assigned by the code). -/
inductive SessionStatus
  | active
  | completed
  | expired
deriving DecidableEq

/-- A `Vote` record; `VoteValue` is the `Int` values `1` and `-1` in the
routes, kept as `Int` here. -/
structure Vote where
  userId : String
  value : Int
  timestamp : Nat
deriving DecidableEq

/-- A `Keyword` (tag); `votes` models the userId-keyed `Map` as an
insertion-ordered list. -/
structure Keyword where
  id : String
  text : String
  category : Category
  votes : List Vote
  totalScore : Int
  addedBy : String
  createdAt : Nat
deriving DecidableEq

/-- A `Participant` (the transient `socketId` handle is not modeled). -/
structure Participant where
  id : String
  name : String
  userCode : String
  joinedAt : Nat
  isCreator : Bool
  isAdmin : Bool
deriving DecidableEq

/-- The session's consensus record. -/
structure ConsensusRecord where
  finalized : List String
  pending : List String
deriving DecidableEq

/-- A `PlanningSession`; the two `Map`s are insertion-ordered lists. -/
structure PlanningSession where
  id : String
  creator : String
  adminUserId : String
  description : String
  participants : List Participant
  keywords : List Keyword
  consensus : ConsensusRecord
  status : SessionStatus
  createdAt : Nat
  expiresAt : Nat
deriving DecidableEq

/-- JS `Map.set` semantics on the vote list: overwrite in place if the
participant already voted, append otherwise. -/
def upsertVote (vs : List Vote) (v : Vote) : List Vote :=
  if vs.any (fun w => w.userId == v.userId) then
    vs.map (fun w => if w.userId == v.userId then v else w)
  else vs ++ [v]

/-- JS `Map.set` semantics on the keyword map. -/
def upsertKeyword (ks : List Keyword) (k : Keyword) : List Keyword :=
  if ks.any (fun w => w.id == k.id) then
    ks.map (fun w => if w.id == k.id then k else w)
  else ks ++ [k]

/-- JS `Map.set` semantics on the participant map. -/
def upsertParticipant (ps : List Participant) (p : Participant) : List Participant :=
  if ps.any (fun w => w.id == p.id) then
    ps.map (fun w => if w.id == p.id then p else w)
  else ps ++ [p]

/-- `reduce((sum, v) => sum + v.value, 0)` over a tag's votes. -/
def sumVotes (vs : List Vote) : Int :=
  vs.foldl (fun acc v => acc + v.value) 0

/-- Model of `String.prototype.trim` on `String`. -/
def jsTrim (s : String) : String :=
  String.mk (trimList s.data)

/-- `name.trim().toLowerCase()`, the comparison key of
`isNameTakenInSession`. -/
def lowerTrim (s : String) : String :=
  String.mk ((trimList s.data).map jsToLower)

/-! `userUtils.ts`. -/

/-- Characters accepted by `validateUserName`'s regex
`[a-zA-Z0-9\s-_'.]` (letters, digits, whitespace, hyphen, underscore,
apostrophe, period — the last two written by code point). -/
def isValidNameChar (c : Char) : Bool :=
  (97 ≤ c.toNat && c.toNat ≤ 122) || (65 ≤ c.toNat && c.toNat ≤ 90) ||
  (48 ≤ c.toNat && c.toNat ≤ 57) || jsIsSpace c ||
  c.toNat = 45 || c.toNat = 95 || c.toNat = 39 || c.toNat = 46

/-- Result of `validateUserName`. -/
structure NameValidation where
  isValid : Bool
  error : Option String
deriving DecidableEq

/-- `validateUserName` from `userUtils.ts`. -/
def validateUserName (name : String) : NameValidation :=
  let trimmed := trimList name.data
  if trimmed.isEmpty then ⟨false, some "Name cannot be empty"⟩
  else if trimmed.length < 2 then
    ⟨false, some "Name must be at least 2 characters long"⟩
  else if 50 < trimmed.length then
    ⟨false, some "Name must be less than 50 characters long"⟩
  else if !trimmed.all isValidNameChar then
    ⟨false, some "Name contains invalid characters"⟩
  else ⟨true, none⟩

/-- `isNameTakenInSession` (no excluded user, as called by `joinSession`). -/
def isNameTakenInSession (s : PlanningSession) (name : String) : Bool :=
  s.participants.any (fun p => lowerTrim p.name == lowerTrim name)

/-! `SessionManager.ts` operations.  The manager state is the nullable
`currentSession` field, i.e. an `Option PlanningSession`. -/

/-- `SessionManager.getSession`. -/
def getSession (st : Option PlanningSession) (sessionId : String) :
    Option PlanningSession :=
  match st with
  | none => none
  | some s => if s.id = sessionId then some s else none

/-- `SessionManager.createSession`.  Fresh creator id and 3-digit code are
explicit parameters (modeling `generateUserId`/`generateUserCode`); on an
invalid creator name the source throws, modeled as `Except.error`. -/
def createSession (st : Option PlanningSession)
    (description creatorName newUserId newUserCode : String) (now : Nat) :
    Except String (String × String × String) × Option PlanningSession :=
  if (validateUserName creatorName).isValid = false then
    (Except.error ((validateUserName creatorName).error.getD ""), st)
  else
    let creator : Participant :=
      ⟨newUserId, jsTrim creatorName, newUserCode, now, true, true⟩
    let session : PlanningSession :=
      ⟨"current", newUserId, newUserId, description, [creator], [],
        ⟨[], []⟩, .active, now, now + 24 * 60 * 60 * 1000⟩
    (Except.ok ("current", newUserId, newUserCode), some session)

/-- Return shape of `joinSession`. -/
structure JoinResult where
  userId : String
  userCode : String
  success : Bool
  error : Option String
deriving DecidableEq

/-- `SessionManager.joinSession`; the freshly generated participant id and
user code are explicit parameters. -/
def joinSession (st : Option PlanningSession)
    (sessionId name newUserId newUserCode : String) (now : Nat) :
    JoinResult × Option PlanningSession :=
  match st with
  | none => (⟨"", "", false, some "Session not found"⟩, none)
  | some s =>
    if s.id ≠ sessionId then (⟨"", "", false, some "Session not found"⟩, some s)
    else if s.status ≠ SessionStatus.active then
      (⟨"", "", false, some "Session is not active"⟩, some s)
    else if (validateUserName name).isValid = false then
      (⟨"", "", false, (validateUserName name).error⟩, some s)
    else if isNameTakenInSession s name then
      (⟨"", "", false,
        some ("Name \"" ++ jsTrim name ++
          "\" is already taken in this session. Please choose a different name.")⟩,
        some s)
    else
      let p : Participant := ⟨newUserId, jsTrim name, newUserCode, now, false, false⟩
      (⟨newUserId, newUserCode, true, none⟩,
        some { s with participants := upsertParticipant s.participants p })

/-- The `userData` payload of `rejoinSession`. -/
structure RejoinUserData where
  name : String
  isCreator : Bool
  isAdmin : Bool
deriving DecidableEq

/-- Return shape of `rejoinSession`. -/
structure RejoinResult where
  userId : String
  userCode : String
  success : Bool
  error : Option String
  userData : Option RejoinUserData
deriving DecidableEq

/-- `SessionManager.rejoinSession`: a pure lookup by user code. -/
def rejoinSession (st : Option PlanningSession) (sessionId userCode : String) :
    RejoinResult × Option PlanningSession :=
  match st with
  | none => (⟨"", "", false, some "Session not found", none⟩, none)
  | some s =>
    if s.id ≠ sessionId then
      (⟨"", "", false, some "Session not found", none⟩, some s)
    else if s.status ≠ SessionStatus.active then
      (⟨"", "", false, some "Session is not active", none⟩, some s)
    else
      match s.participants.find? (fun p => p.userCode == userCode) with
      | none =>
        (⟨"", "", false,
          some ("User code \"" ++ userCode ++
            "\" not found in this session. Please check your code or join as a new participant."),
          none⟩, some s)
      | some p =>
        (⟨p.id, p.userCode, true, none, some ⟨p.name, p.isCreator, p.isAdmin⟩⟩,
          some s)

/-- `SessionManager.deleteSession` (admin check via `isUserAdmin`). -/
def deleteSession (st : Option PlanningSession) (sessionId userId : String) :
    (Bool × Option String) × Option PlanningSession :=
  match st with
  | none => ((false, some "Session not found"), none)
  | some s =>
    if s.id ≠ sessionId then ((false, some "Session not found"), some s)
    else if s.adminUserId ≠ userId then
      ((false, some "Only the session admin can delete the session"), some s)
    else ((true, none), none)

/-- `SessionManager.addKeyword`: validation, dedup by normalized text
(duplicate contributions become a `+1` vote on the existing tag), otherwise
creation of a new tag appended to `consensus.pending`.  The fresh keyword id
is an explicit parameter. -/
def addKeyword (st : Option PlanningSession)
    (sessionId userId text : String) (category : Category)
    (newKeywordId : String) (now : Nat) :
    Option Keyword × Option PlanningSession :=
  match st with
  | none => (none, none)
  | some s =>
    if s.id ≠ sessionId then (none, some s)
    else if !(s.participants.any (fun p => p.id == userId)) then (none, some s)
    else if (validateTag text).isValid = false then (none, some s)
    else
      let normalizedText := normalizeTag text
      match s.keywords.find? (fun k => normalizeTag k.text == normalizedText) with
      | some existing =>
        let v : Vote := ⟨userId, 1, now⟩
        let newVotes := upsertVote existing.votes v
        let updated : Keyword :=
          { existing with votes := newVotes, totalScore := sumVotes newVotes }
        (some updated, some { s with keywords := upsertKeyword s.keywords updated })
      | none =>
        let kw : Keyword := ⟨newKeywordId, normalizedText, category, [], 0, userId, now⟩
        (some kw,
          some { s with
            keywords := upsertKeyword s.keywords kw,
            consensus := { s.consensus with
              pending := s.consensus.pending ++ [newKeywordId] } })

/-- The consensus rule of `SessionManager.checkConsensus`: the positive
ratio is at least `0.6` and the negative ratio is below `0.25` (rational
arithmetic; JS float division agrees with ℚ on all feasible counts). -/
def consensusReached (positiveVotes negativeVotes totalParticipants : Nat) : Prop :=
  (positiveVotes : ℚ) / (totalParticipants : ℚ) ≥ 0.6 ∧
  (negativeVotes : ℚ) / (totalParticipants : ℚ) < 0.25

/-- The consensus rule is decided by the equivalent integer test
`3n ≤ 5p` and `4q < n` (and `n > 0`), so that concrete runs evaluate. -/
instance consensusReached.instDec (p q n : Nat) : Decidable (consensusReached p q n) :=
  decidable_of_iff (0 < n ∧ 3 * n ≤ 5 * p ∧ 4 * q < n) (by
    symm
    unfold consensusReached
    rcases Nat.eq_zero_or_pos n with h | h
    · subst h
      simp
      intro h6
      norm_num at h6
    · have hn : (0 : ℚ) < (n : ℚ) := by exact_mod_cast h
      rw [ge_iff_le, show (0.6 : ℚ) = 3 / 5 by norm_num,
        show (0.25 : ℚ) = 1 / 4 by norm_num,
        div_le_div_iff (by norm_num) hn, div_lt_div_iff hn (by norm_num)]
      have e1 : ((p : ℚ) * 5) = ((5 * p : Nat) : ℚ) := by push_cast; ring
      have e2 : ((1 : ℚ) * (n : ℚ)) = ((n : Nat) : ℚ) := by norm_num
      have e3 : ((q : ℚ) * 4) = ((4 * q : Nat) : ℚ) := by push_cast; ring
      have e4 : ((3 : ℚ) * (n : ℚ)) = ((3 * n : Nat) : ℚ) := by push_cast; ring
      rw [e1, e2, e3, e4, Nat.cast_le, Nat.cast_lt]
      omega)

/-- `SessionManager.checkConsensus`: ratios over the participant count,
pending-to-finalized move when at least 60 percent voted positively and
fewer than 25 percent negatively (`splice` of the first index is
`List.erase`). -/
def checkConsensus (s : PlanningSession) (keywordId : String) : PlanningSession :=
  match s.keywords.find? (fun k => k.id == keywordId) with
  | none => s
  | some k =>
    let totalParticipants := s.participants.length
    let positiveVotes := (k.votes.filter (fun v => 0 < v.value)).length
    let negativeVotes := (k.votes.filter (fun v => v.value < 0)).length
    if consensusReached positiveVotes negativeVotes totalParticipants then
      if keywordId ∈ s.consensus.pending then
        { s with consensus :=
            { pending := s.consensus.pending.erase keywordId,
              finalized := s.consensus.finalized ++ [keywordId] } }
      else s
    else s

/-- Return shape of `vote`. -/
structure VoteOpResult where
  success : Bool
  error : Option String
  totalScore : Option Int
  votes : Option (List Vote)
deriving DecidableEq

/-- `SessionManager.vote`: upsert the vote, recompute the score, then run
`checkConsensus` on the voted keyword. -/
def vote (st : Option PlanningSession)
    (sessionId userId keywordId : String) (value : Int) (now : Nat) :
    VoteOpResult × Option PlanningSession :=
  match st with
  | none => (⟨false, some "Session not found", none, none⟩, none)
  | some s =>
    if s.id ≠ sessionId then (⟨false, some "Session not found", none, none⟩, some s)
    else if !(s.participants.any (fun p => p.id == userId)) then
      (⟨false, some "User not in session", none, none⟩, some s)
    else
      match s.keywords.find? (fun k => k.id == keywordId) with
      | none => (⟨false, some "Keyword not found", none, none⟩, some s)
      | some k =>
        let v : Vote := ⟨userId, value, now⟩
        let newVotes := upsertVote k.votes v
        let updated : Keyword :=
          { k with votes := newVotes, totalScore := sumVotes newVotes }
        let s1 : PlanningSession := { s with keywords := upsertKeyword s.keywords updated }
        (⟨true, none, some updated.totalScore, some newVotes⟩,
          some (checkConsensus s1 keywordId))

/-- `SessionManager.cleanupExpiredSession`: drop the session when the
current time is past `expiresAt` (the only expiration check in the code). -/
def cleanupExpiredSession (st : Option PlanningSession) (now : Nat) :
    Option PlanningSession :=
  match st with
  | none => none
  | some s => if s.expiresAt < now then none else some s

/-! Broadcast events (`sessionSocket.ts`) and the REST add-keyword route
(`routes/session.ts`, `POST /current/keywords`). -/

/-- The Socket.io events relevant to tag addition and voting. -/
inductive BroadcastEvent
  | keywordAdded (keywordId : String)
  | voteUpdated (keywordId : String)
  | sessionStats
deriving DecidableEq

/-- `broadcastKeywordAdded`: emits `keyword-added` when the session and
keyword exist. -/
def broadcastKeywordAdded (st : Option PlanningSession)
    (sessionId keywordId : String) : List BroadcastEvent :=
  match getSession st sessionId with
  | none => []
  | some s =>
    match s.keywords.find? (fun k => k.id == keywordId) with
    | none => []
    | some _ => [.keywordAdded keywordId]

/-- `broadcastSessionStats`. -/
def broadcastSessionStats (st : Option PlanningSession) (sessionId : String) :
    List BroadcastEvent :=
  match getSession st sessionId with
  | none => []
  | some _ => [.sessionStats]

/-- The `POST /current/keywords` route handler: calls `addKeyword` with the
trimmed text and, whenever a keyword is returned, unconditionally broadcasts
`keyword-added` plus session stats. -/
def postCurrentKeywords (st : Option PlanningSession)
    (userId text : String) (category : Category)
    (newKeywordId : String) (now : Nat) :
    Option Keyword × List BroadcastEvent × Option PlanningSession :=
  if userId = "" ∨ text = "" then (none, [], st)
  else
    match addKeyword st "current" userId (jsTrim text) category newKeywordId now with
    | (none, st') => (none, [], st')
    | (some k, st') =>
      (some k,
        broadcastKeywordAdded st' "current" k.id ++ broadcastSessionStats st' "current",
        st')

/-! Step relations over the manager state, used for temporal claims.
`SessionStep` covers the session-preserving operations (join, rejoin, add
keyword, vote); the freshness side conditions on generated ids and codes
reflect the `uuid`/`generateUserCode` generator contracts. -/

/-- One session-preserving operation of the manager. -/
inductive SessionStep : Option PlanningSession → Option PlanningSession → Prop
  | join (st : Option PlanningSession) (sessionId name newUserId newUserCode : String)
      (now : Nat)
      (hid : ∀ s, st = some s → newUserId ∉ s.participants.map Participant.id)
      (hcode : ∀ s, st = some s → newUserCode ∉ s.participants.map Participant.userCode) :
      SessionStep st (joinSession st sessionId name newUserId newUserCode now).2
  | rejoin (st : Option PlanningSession) (sessionId userCode : String) :
      SessionStep st (rejoinSession st sessionId userCode).2
  | addKeyword (st : Option PlanningSession) (sessionId userId text : String)
      (category : Category) (newKeywordId : String) (now : Nat)
      (hkid : ∀ s, st = some s → newKeywordId ∉ s.keywords.map Keyword.id) :
      SessionStep st (addKeyword st sessionId userId text category newKeywordId now).2
  | vote (st : Option PlanningSession) (sessionId userId keywordId : String)
      (value : Int) (now : Nat) :
      SessionStep st (vote st sessionId userId keywordId value now).2

/-- Zero or more session-preserving operations. -/
def Evolves : Option PlanningSession → Option PlanningSession → Prop :=
  Relation.ReflTransGen SessionStep

/-- All reachable manager states, starting from no session and closed under
every state-changing operation (no freshness assumptions). -/
inductive Reachable : Option PlanningSession → Prop
  | init : Reachable none
  | create (st : Option PlanningSession)
      (description creatorName newUserId newUserCode : String) (now : Nat) :
      Reachable st →
      Reachable (createSession st description creatorName newUserId newUserCode now).2
  | join (st : Option PlanningSession)
      (sessionId name newUserId newUserCode : String) (now : Nat) :
      Reachable st →
      Reachable (joinSession st sessionId name newUserId newUserCode now).2
  | rejoin (st : Option PlanningSession) (sessionId userCode : String) :
      Reachable st → Reachable (rejoinSession st sessionId userCode).2
  | addKeyword (st : Option PlanningSession) (sessionId userId text : String)
      (category : Category) (newKeywordId : String) (now : Nat) :
      Reachable st →
      Reachable (addKeyword st sessionId userId text category newKeywordId now).2
  | vote (st : Option PlanningSession) (sessionId userId keywordId : String)
      (value : Int) (now : Nat) :
      Reachable st → Reachable (vote st sessionId userId keywordId value now).2
  | delete (st : Option PlanningSession) (sessionId userId : String) :
      Reachable st → Reachable (deleteSession st sessionId userId).2
  | cleanup (st : Option PlanningSession) (now : Nat) :
      Reachable st → Reachable (cleanupExpiredSession st now)

/-- Keyword id list of a manager state (empty when no session). -/
def keywordIdsOf (st : Option PlanningSession) : List String :=
  match st with
  | none => []
  | some s => s.keywords.map Keyword.id

/-- Finalized consensus list of a manager state. -/
def finalizedOf (st : Option PlanningSession) : List String :=
  match st with
  | none => []
  | some s => s.consensus.finalized

/-- Pending consensus list of a manager state. -/
def pendingOf (st : Option PlanningSession) : List String :=
  match st with
  | none => []
  | some s => s.consensus.pending

/-- One recorded `addKeyword` call (the fresh keyword id that
`generateKeywordId` would produce is part of the record). -/
structure AddCall where
  userId : String
  text : String
  category : Category
  newKeywordId : String
  now : Nat
deriving DecidableEq

/-- Run a sequence of `addKeyword` calls against a session id. -/
def runAdds (st : Option PlanningSession) (sessionId : String) :
    List AddCall → Option PlanningSession
  | [] => st
  | c :: cs =>
    runAdds (addKeyword st sessionId c.userId c.text c.category c.newKeywordId c.now).2
      sessionId cs

/-- Number of tags of a manager state. -/
def keywordCountOf (st : Option PlanningSession) : Nat :=
  match st with
  | none => 0
  | some s => s.keywords.length

/-! Concrete sessions used to evaluate the model on closed inputs. -/

/-- A five-participant session whose tag `k1` (`coffee-shop`) is pending
with two positive votes. -/
def exampleSession5 : PlanningSession :=
  ⟨"current", "u1", "u1", "weekend brunch",
    [⟨"u1", "Ana", "101", 0, true, true⟩, ⟨"u2", "Ben", "102", 0, false, false⟩,
      ⟨"u3", "Cai", "103", 0, false, false⟩, ⟨"u4", "Dee", "104", 0, false, false⟩,
      ⟨"u5", "Eve", "105", 0, false, false⟩],
    [⟨"k1", "coffee-shop", .food, [⟨"u1", 1, 0⟩, ⟨"u2", 1, 0⟩], 2, "u1", 0⟩],
    ⟨[], ["k1"]⟩, .active, 0, 86400000⟩

/-- A one-participant session with no tags, already past its `expiresAt`. -/
def exampleSession1 : PlanningSession :=
  ⟨"current", "u1", "u1", "weekend brunch",
    [⟨"u1", "Alice", "101", 0, true, true⟩],
    [], ⟨[], []⟩, .active, 0, 0⟩

/-- A two-participant session whose tag `k1` (`hiking`) carries a `-1` vote
by the second participant. -/
def exampleSession2 : PlanningSession :=
  ⟨"current", "u1", "u1", "weekend brunch",
    [⟨"u1", "Ana", "101", 0, true, true⟩, ⟨"u2", "Ben", "102", 0, false, false⟩],
    [⟨"k1", "hiking", .activity, [⟨"u2", -1, 3⟩], -1, "u1", 0⟩],
    ⟨[], ["k1"]⟩, .active, 0, 86400000⟩

/-- A one-participant session whose tag `k1` is already finalized. -/
def exampleSessionFin : PlanningSession :=
  ⟨"current", "u1", "u1", "weekend brunch",
    [⟨"u1", "Ana", "101", 0, true, true⟩],
    [⟨"k1", "coffee-shop", .food, [⟨"u1", 1, 0⟩], 1, "u1", 0⟩],
    ⟨["k1"], []⟩, .active, 0, 86400000⟩

/-! Character-class facts. -/

theorem char_eq_of_toNat_eq {a b : Char} (h : a.toNat = b.toNat) : a = b :=
  Char.eq_of_val_eq (UInt32.ext h)

theorem toNat_hyphen : ('-' : Char).toNat = 45 := by decide

theorem toNat_space : (' ' : Char).toNat = 32 := by decide

theorem char_toNat_ofNat_lt {n : Nat} (h : n < 55296) : (Char.ofNat n).toNat = n := by
  have hv : n.isValidChar := Or.inl h
  simp [Char.ofNat, hv, Char.toNat, Char.ofNatAux, UInt32.toNat, BitVec.toNat_ofNatLt]

/-- After `jsToLower`, no character is an ASCII uppercase letter. -/
theorem jsToLower_not_upper (c : Char) :
    ¬(65 ≤ (jsToLower c).toNat ∧ (jsToLower c).toNat ≤ 90) := by
  unfold jsToLower
  split
  · next h =>
    rw [char_toNat_ofNat_lt (by omega)]
    omega
  · next h => exact h

/-- `jsToLower` fixes characters that are not ASCII uppercase letters. -/
theorem jsToLower_eq_self {c : Char} (h : ¬(65 ≤ c.toNat ∧ c.toNat ≤ 90)) :
    jsToLower c = c := by
  unfold jsToLower
  exact if_neg h

/-- The characters of a normalized tag: lowercase ASCII letters or the
hyphen.  Such characters are fixed by every pipeline stage. -/
theorem normChar_facts {c : Char}
    (h : (97 ≤ c.toNat ∧ c.toNat ≤ 122) ∨ c = '-') :
    jsIsSpace c = false ∧ jsToLower c = c ∧ isTagChar c = true := by
  have hn : (97 ≤ c.toNat ∧ c.toNat ≤ 122) ∨ c.toNat = 45 := by
    rcases h with h | h
    · exact Or.inl h
    · subst h; exact Or.inr toNat_hyphen
  refine ⟨?_, jsToLower_eq_self (by omega), ?_⟩
  · unfold jsIsSpace
    simp only [Bool.or_eq_false_iff, decide_eq_false_iff_not]
    omega
  · unfold isTagChar
    simp only [Bool.or_eq_true, Bool.and_eq_true, decide_eq_true_eq]
    omega

/-- A member of the tag filter output that is not an ASCII uppercase letter
is a lowercase letter or a hyphen. -/
theorem tagChar_not_upper {c : Char} (ht : isTagChar c = true)
    (hu : ¬(65 ≤ c.toNat ∧ c.toNat ≤ 90)) :
    (97 ≤ c.toNat ∧ c.toNat ≤ 122) ∨ c = '-' := by
  by_cases h45 : c.toNat = 45
  · exact Or.inr (char_eq_of_toNat_eq (h45.trans toNat_hyphen.symm))
  · left
    unfold isTagChar at ht
    simp only [Bool.or_eq_true, Bool.and_eq_true, decide_eq_true_eq] at ht
    omega

/-! Identity of the pipeline stages on inputs without the relevant
characters. -/

theorem dropWhile_eq_self_of {p : Char → Bool} {l : List Char}
    (h : ∀ c ∈ l, p c = false) : l.dropWhile p = l := by
  cases l with
  | nil => rfl
  | cons c cs =>
    rw [List.dropWhile_cons, h c (by simp)]
    simp

theorem dropTrailingWhile_eq_self_of {p : Char → Bool} {l : List Char}
    (h : ∀ c, l.getLast? = some c → p c = false) : dropTrailingWhile p l = l := by
  induction l with
  | nil => rfl
  | cons c cs ih =>
    cases cs with
    | nil =>
      have := h c rfl
      simp [dropTrailingWhile, this]
    | cons d ds =>
      have hih : dropTrailingWhile p (d :: ds) = d :: ds := by
        apply ih
        intro x hx
        exact h x (by rw [List.getLast?_cons_cons]; exact hx)
      rw [dropTrailingWhile, hih]

theorem trimList_eq_self_of {l : List Char}
    (h : ∀ c ∈ l, jsIsSpace c = false) : trimList l = l := by
  unfold trimList
  rw [dropWhile_eq_self_of h]
  exact dropTrailingWhile_eq_self_of (fun c hc => h c (List.mem_of_mem_getLast? hc))

theorem map_eq_self_of {f : Char → Char} {l : List Char}
    (h : ∀ c ∈ l, f c = c) : l.map f = l := by
  induction l with
  | nil => rfl
  | cons c cs ih =>
    simp only [List.map_cons, h c (by simp)]
    rw [ih (fun x hx => h x (by simp [hx]))]

theorem replaceWs_eq_self_of {l : List Char}
    (h : ∀ c ∈ l, jsIsSpace c = false) : replaceWs l = l := by
  induction l with
  | nil => rfl
  | cons c cs ih =>
    cases cs with
    | nil => simp [replaceWs, h c (by simp)]
    | cons d ds =>
      have hc := h c (by simp)
      have hrest : replaceWs (d :: ds) = d :: ds := by
        apply ih
        intro x hx
        exact h x (by simp [hx])
      rw [replaceWs, hc]
      simp [hrest]

theorem hasDoubleHyphen_cons_false {a : Char} {l : List Char}
    (h : hasDoubleHyphen (a :: l) = false) : hasDoubleHyphen l = false := by
  cases l with
  | nil => rfl
  | cons b r =>
    rw [hasDoubleHyphen] at h
    exact (Bool.or_eq_false_iff.mp h).2

theorem collapseHyphens_eq_self_of : ∀ {l : List Char},
    hasDoubleHyphen l = false → collapseHyphens l = l
  | [], _ => rfl
  | [c], _ => rfl
  | a :: b :: rest, h => by
    rw [hasDoubleHyphen] at h
    rcases Bool.or_eq_false_iff.mp h with ⟨h1, h2⟩
    rw [collapseHyphens, h1]
    simp only [Bool.false_eq_true, if_false]
    rw [collapseHyphens_eq_self_of h2]

theorem stripHyphens_eq_self_of {l : List Char}
    (hh : ∀ c, l.head? = some c → c ≠ '-')
    (hl : ∀ c, l.getLast? = some c → c ≠ '-') : stripHyphens l = l := by
  unfold stripHyphens
  have h1 : l.dropWhile (· == '-') = l := by
    cases l with
    | nil => rfl
    | cons c cs =>
      rw [List.dropWhile_cons]
      have := hh c rfl
      simp [this]
  rw [h1]
  apply dropTrailingWhile_eq_self_of
  intro c hc
  have := hl c hc
  simp [this]

/-! Split and join. -/

theorem splitHyphen_ne_nil (l : List Char) : splitHyphen l ≠ [] := by
  cases l with
  | nil => simp [splitHyphen]
  | cons c cs =>
    rw [splitHyphen]
    rcases h : splitHyphen cs with _ | ⟨s, ss⟩
    · simp
    · by_cases hc : c == '-' <;> simp [hc]

theorem joinHyphen_cons_of_ne_nil {s : List Char} {rest : List (List Char)}
    (h : rest ≠ []) : joinHyphen (s :: rest) = s ++ '-' :: joinHyphen rest := by
  cases rest with
  | nil => exact absurd rfl h
  | cons t ts => rfl

theorem joinHyphen_splitHyphen : ∀ l : List Char, joinHyphen (splitHyphen l) = l := by
  intro l
  induction l with
  | nil => rfl
  | cons c cs ih =>
    cases h : splitHyphen cs with
    | nil => exact absurd h (splitHyphen_ne_nil cs)
    | cons s ss =>
      rw [splitHyphen, h]
      rw [h] at ih
      by_cases hc : c = '-'
      · subst hc
        simp only [beq_self_eq_true, if_true]
        rw [joinHyphen_cons_of_ne_nil (by simp), ih]
        simp
      · have hcb : (c == '-') = false := by simpa using hc
        simp only [hcb, Bool.false_eq_true, if_false]
        cases ss with
        | nil =>
          show joinHyphen [c :: s] = c :: cs
          have ih2 : s = cs := ih
          rw [joinHyphen, ih2]
        | cons t ts =>
          rw [joinHyphen_cons_of_ne_nil (by simp)] at ih
          rw [joinHyphen_cons_of_ne_nil (by simp), List.cons_append, ih]

theorem mem_of_mem_splitHyphen : ∀ {l : List Char} {seg : List Char},
    seg ∈ splitHyphen l → ∀ c ∈ seg, c ∈ l ∧ c ≠ '-' := by
  intro l
  induction l with
  | nil =>
    intro seg hseg c hc
    simp [splitHyphen] at hseg
    subst hseg
    simp at hc
  | cons a cs ih =>
    intro seg hseg c hc
    rw [splitHyphen] at hseg
    rcases h : splitHyphen cs with _ | ⟨s, ss⟩
    · exact absurd h (splitHyphen_ne_nil cs)
    · rw [h] at hseg
      by_cases ha : a == '-'
      · simp only [ha, if_true] at hseg
        rcases List.mem_cons.mp hseg with h1 | h1
        · subst h1; simp at hc
        · have := ih (h ▸ h1) c hc
          exact ⟨List.mem_cons_of_mem a this.1, this.2⟩
      · simp only [ha, if_false] at hseg
        rcases List.mem_cons.mp hseg with h1 | h1
        · subst h1
          rcases List.mem_cons.mp hc with h2 | h2
          · subst h2
            refine ⟨by simp, ?_⟩
            intro hcon
            subst hcon
            simp at ha
          · have := ih (h ▸ List.mem_cons_self s ss) c h2
            exact ⟨List.mem_cons_of_mem a this.1, this.2⟩
        · have := ih (h ▸ List.mem_cons_of_mem s h1) c hc
          exact ⟨List.mem_cons_of_mem a this.1, this.2⟩

theorem splitHyphen_no_hyphen : ∀ {s : List Char}, '-' ∉ s → splitHyphen s = [s] := by
  intro s
  induction s with
  | nil => intro _; rfl
  | cons c cs ih =>
    intro h
    have hc : ¬(c == '-') = true := by
      simp only [beq_iff_eq]
      intro hcon
      exact h (hcon ▸ List.mem_cons_self c cs)
    have hcs : '-' ∉ cs := fun hx => h (List.mem_cons_of_mem c hx)
    rw [splitHyphen, ih hcs]
    simp [hc]

theorem splitHyphen_append_no_hyphen : ∀ {s l : List Char} {f : List Char}
    {t : List (List Char)}, '-' ∉ s → splitHyphen l = f :: t →
    splitHyphen (s ++ l) = (s ++ f) :: t := by
  intro s
  induction s with
  | nil =>
    intro l f t _ h
    simpa using h
  | cons c cs ih =>
    intro l f t hno h
    have hc : ¬(c == '-') = true := by
      simp only [beq_iff_eq]
      intro hcon
      exact hno (hcon ▸ List.mem_cons_self c cs)
    have hcs : '-' ∉ cs := fun hx => hno (List.mem_cons_of_mem c hx)
    have := ih hcs h
    rw [List.cons_append, splitHyphen, this]
    simp [hc]

theorem splitHyphen_joinHyphen : ∀ {segs : List (List Char)}, segs ≠ [] →
    (∀ s ∈ segs, '-' ∉ s) → splitHyphen (joinHyphen segs) = segs := by
  intro segs
  induction segs with
  | nil => intro h _; exact absurd rfl h
  | cons s rest ih =>
    intro _ hh
    cases rest with
    | nil =>
      show splitHyphen (joinHyphen [s]) = [s]
      rw [joinHyphen]
      exact splitHyphen_no_hyphen (hh s (by simp))
    | cons t ts =>
      rw [joinHyphen_cons_of_ne_nil (by simp)]
      have hrest : splitHyphen (joinHyphen (t :: ts)) = t :: ts :=
        ih (by simp) (fun x hx => hh x (List.mem_cons_of_mem s hx))
      have hsplit : splitHyphen ('-' :: joinHyphen (t :: ts)) = [] :: t :: ts := by
        rw [splitHyphen, hrest]
        simp
      have := splitHyphen_append_no_hyphen (hh s (by simp)) hsplit
      rw [this]
      simp

/-! Membership and shape of `joinHyphen`. -/

theorem mem_joinHyphen : ∀ {segs : List (List Char)} {c : Char},
    c ∈ joinHyphen segs → c = '-' ∨ ∃ s ∈ segs, c ∈ s := by
  intro segs
  induction segs with
  | nil => intro c hc; simp [joinHyphen] at hc
  | cons s rest ih =>
    intro c hc
    cases rest with
    | nil =>
      rw [joinHyphen] at hc
      exact Or.inr ⟨s, by simp, hc⟩
    | cons t ts =>
      rw [joinHyphen_cons_of_ne_nil (by simp)] at hc
      rcases List.mem_append.mp hc with h | h
      · exact Or.inr ⟨s, by simp, h⟩
      · rcases List.mem_cons.mp h with h1 | h1
        · exact Or.inl h1
        · rcases ih h1 with h2 | ⟨u, hu, hcu⟩
          · exact Or.inl h2
          · exact Or.inr ⟨u, List.mem_cons_of_mem s hu, hcu⟩

theorem joinHyphen_head_cons {s : List Char} {rest : List (List Char)}
    {c : Char} {cs : List Char} (h : s = c :: cs) :
    ∃ u, joinHyphen (s :: rest) = c :: u := by
  cases rest with
  | nil => exact ⟨cs, by rw [joinHyphen, h]⟩
  | cons t ts =>
    refine ⟨cs ++ '-' :: joinHyphen (t :: ts), ?_⟩
    rw [joinHyphen_cons_of_ne_nil (by simp), h]
    rfl

theorem hasDoubleHyphen_append_no_hyphen : ∀ {s w : List Char}, '-' ∉ s →
    hasDoubleHyphen (s ++ w) = hasDoubleHyphen w := by
  intro s
  induction s with
  | nil => intro w _; rfl
  | cons c cs ih =>
    intro w hno
    have hc : ¬(c == '-') = true := by
      simp only [beq_iff_eq]
      intro hcon
      exact hno (hcon ▸ List.mem_cons_self c cs)
    have hcs : '-' ∉ cs := fun hx => hno (List.mem_cons_of_mem c hx)
    cases cs with
    | nil =>
      cases w with
      | nil => rfl
      | cons b r =>
        show hasDoubleHyphen (c :: b :: r) = hasDoubleHyphen (b :: r)
        rw [hasDoubleHyphen]
        simp [hc]
    | cons d ds =>
      show hasDoubleHyphen (c :: (d :: ds ++ w)) = hasDoubleHyphen w
      rw [show (d :: ds ++ w) = (d :: (ds ++ w)) from rfl, hasDoubleHyphen]
      have hd := ih hcs (w := w)
      rw [show ((d :: ds) ++ w) = (d :: (ds ++ w)) from rfl] at hd
      rw [hd]
      simp [hc]

theorem hasDoubleHyphen_no_hyphen {s : List Char} (h : '-' ∉ s) :
    hasDoubleHyphen s = false := by
  have := hasDoubleHyphen_append_no_hyphen (w := []) h
  rw [List.append_nil] at this
  rw [this]
  rfl

theorem hasDoubleHyphen_joinHyphen : ∀ {segs : List (List Char)},
    (∀ s ∈ segs, s ≠ [] ∧ '-' ∉ s) → hasDoubleHyphen (joinHyphen segs) = false := by
  intro segs
  induction segs with
  | nil => intro _; rfl
  | cons s rest ih =>
    intro hseg
    cases rest with
    | nil =>
      rw [joinHyphen]
      exact hasDoubleHyphen_no_hyphen (hseg s (by simp)).2
    | cons t ts =>
      rw [joinHyphen_cons_of_ne_nil (by simp),
        hasDoubleHyphen_append_no_hyphen (hseg s (by simp)).2]
      rcases ht : t with _ | ⟨c, cs⟩
      · exact absurd ht (hseg t (by simp)).1
      · obtain ⟨u, hu⟩ := @joinHyphen_head_cons t ts c cs ht
        rw [ht] at hu
        rw [hu, hasDoubleHyphen]
        have hc : ¬(c == '-') = true := by
          simp only [beq_iff_eq]
          intro hcon
          exact (hseg t (by simp)).2 (by rw [ht, hcon]; simp)
        have hrest : hasDoubleHyphen (joinHyphen (t :: ts)) = false :=
          ih (fun x hx => hseg x (List.mem_cons_of_mem s hx))
        rw [ht] at hrest
        rw [hu] at hrest
        rw [hrest]
        simp [hc]

theorem getLast?_joinHyphen : ∀ {segs : List (List Char)}, segs ≠ [] →
    (∀ s ∈ segs, s ≠ []) → ∀ c, (joinHyphen segs).getLast? = some c →
    ∃ s ∈ segs, c ∈ s := by
  intro segs
  induction segs with
  | nil => intro h; exact absurd rfl h
  | cons s rest ih =>
    intro _ hne c hc
    cases rest with
    | nil =>
      rw [joinHyphen] at hc
      exact ⟨s, by simp, List.mem_of_mem_getLast? hc⟩
    | cons t ts =>
      rw [joinHyphen_cons_of_ne_nil (by simp)] at hc
      have hJ : joinHyphen (t :: ts) ≠ [] := by
        rcases ht : t with _ | ⟨d, ds⟩
        · exact absurd ht (hne t (by simp))
        · obtain ⟨u, hu⟩ := @joinHyphen_head_cons t ts d ds ht
          rw [ht] at hu
          rw [hu]
          simp
      rw [List.getLast?_append_of_ne_nil s (by simp)] at hc
      have hc2 : (joinHyphen (t :: ts)).getLast? = some c := by
        rcases hJe : joinHyphen (t :: ts) with _ | ⟨d, ds⟩
        · exact absurd hJe hJ
        · rw [hJe] at hc
          rw [List.getLast?_cons_cons] at hc
          exact hc
      obtain ⟨u, hu, hcu⟩ := ih (by simp) (fun x hx => hne x (List.mem_cons_of_mem s hx)) c hc2
      exact ⟨u, List.mem_cons_of_mem s hu, hcu⟩

/-! Membership through the pipeline stages, and the properties each stage
establishes. -/

theorem mem_collapseHyphens : ∀ {l : List Char} {c : Char},
    c ∈ collapseHyphens l → c ∈ l
  | [], c, h => by simp [collapseHyphens] at h
  | [a], c, h => by simpa [collapseHyphens] using h
  | a :: b :: rest, c, h => by
    rw [collapseHyphens] at h
    split at h
    · exact List.mem_cons_of_mem a (mem_collapseHyphens h)
    · rcases List.mem_cons.mp h with h1 | h1
      · exact h1 ▸ List.mem_cons_self a (b :: rest)
      · exact List.mem_cons_of_mem a (mem_collapseHyphens h1)

theorem mem_replaceWs : ∀ {l : List Char} {c : Char},
    c ∈ replaceWs l → c = '-' ∨ c ∈ l
  | [], c, h => by simp [replaceWs] at h
  | [a], c, h => by
    rw [replaceWs] at h
    split at h
    · simp at h
      exact Or.inl h
    · simp at h
      exact Or.inr (by simp [h])
  | a :: b :: rest, c, h => by
    rw [replaceWs] at h
    split at h
    · rcases mem_replaceWs h with h1 | h1
      · exact Or.inl h1
      · exact Or.inr (List.mem_cons_of_mem a h1)
    · rcases List.mem_cons.mp h with h1 | h1
      · subst h1
        split
        · exact Or.inl rfl
        · exact Or.inr (List.mem_cons_self a (b :: rest))
      · rcases mem_replaceWs h1 with h2 | h2
        · exact Or.inl h2
        · exact Or.inr (List.mem_cons_of_mem a h2)

theorem dropTrailingWhile_decomp (p : Char → Bool) :
    ∀ l : List Char, ∃ t, l = dropTrailingWhile p l ++ t
  | [] => ⟨[], rfl⟩
  | c :: cs => by
    obtain ⟨t, ht⟩ := dropTrailingWhile_decomp p cs
    rw [dropTrailingWhile]
    cases hr : dropTrailingWhile p cs with
    | nil =>
      rw [hr] at ht
      simp only [List.nil_append] at ht
      by_cases hc : p c = true
      · exact ⟨c :: cs, by simp [hc]⟩
      · refine ⟨cs, ?_⟩
        simp [hc]
    | cons r rs =>
      refine ⟨t, ?_⟩
      rw [hr] at ht
      simp only [List.cons_append, List.append_assoc] at ht ⊢
      rw [← ht]

theorem mem_dropTrailingWhile {p : Char → Bool} {l : List Char} {c : Char}
    (h : c ∈ dropTrailingWhile p l) : c ∈ l := by
  obtain ⟨t, ht⟩ := dropTrailingWhile_decomp p l
  rw [ht]
  exact List.mem_append_left t h

theorem mem_stripHyphens {l : List Char} {c : Char}
    (h : c ∈ stripHyphens l) : c ∈ l :=
  List.IsSuffix.mem (mem_dropTrailingWhile h) (List.dropWhile_suffix _)

theorem mem_trimList {l : List Char} {c : Char} (h : c ∈ trimList l) : c ∈ l :=
  List.IsSuffix.mem (mem_dropTrailingWhile h) (List.dropWhile_suffix _)

theorem hasDoubleHyphen_of_append_left : ∀ {l₁ l₂ : List Char},
    hasDoubleHyphen (l₁ ++ l₂) = false → hasDoubleHyphen l₁ = false
  | [], _, _ => rfl
  | [_], _, _ => rfl
  | a :: b :: rest, l₂, h => by
    rw [List.cons_append, List.cons_append, hasDoubleHyphen] at h
    rcases Bool.or_eq_false_iff.mp h with ⟨h1, h2⟩
    rw [hasDoubleHyphen, h1]
    rw [← List.cons_append] at h2
    rw [hasDoubleHyphen_of_append_left h2]
    rfl

theorem hasDoubleHyphen_of_append_right : ∀ {l₁ l₂ : List Char},
    hasDoubleHyphen (l₁ ++ l₂) = false → hasDoubleHyphen l₂ = false
  | [], _, h => h
  | a :: l₁, l₂, h => by
    rw [List.cons_append] at h
    exact hasDoubleHyphen_of_append_right (hasDoubleHyphen_cons_false h)

theorem head?_dropWhile_not {p : Char → Bool} : ∀ {l : List Char} {c : Char},
    (l.dropWhile p).head? = some c → p c = false
  | [], c, h => by simp at h
  | a :: l, c, h => by
    rw [List.dropWhile_cons] at h
    split at h
    · exact head?_dropWhile_not h
    · next hn =>
      simp at h
      rw [← h]
      simpa using hn

theorem getLast?_dropTrailingWhile {p : Char → Bool} : ∀ {l : List Char} {c : Char},
    (dropTrailingWhile p l).getLast? = some c → p c = false
  | [], c, h => by simp [dropTrailingWhile] at h
  | a :: l, c, h => by
    rw [dropTrailingWhile] at h
    cases hr : dropTrailingWhile p l with
    | nil =>
      rw [hr] at h
      by_cases ha : p a = true
      · simp [ha] at h
      · simp only [ha, Bool.false_eq_true, if_false] at h
        simp at h
        rw [← h]
        simpa using ha
    | cons r rs =>
      rw [hr] at h
      rw [List.getLast?_cons_cons] at h
      exact getLast?_dropTrailingWhile (hr ▸ h)

theorem hasDoubleHyphen_collapseHyphens_head : ∀ (b : Char) (l : List Char),
    (collapseHyphens (b :: l)).head? = some b
  | b, [] => rfl
  | b, c :: r => by
    rw [collapseHyphens]
    split
    · next h =>
      have hb : b = '-' := by
        rcases Bool.and_eq_true_iff.mp h with ⟨h1, _⟩
        simpa using h1
      have hc : c = '-' := by
        rcases Bool.and_eq_true_iff.mp h with ⟨_, h2⟩
        simpa using h2
      rw [hasDoubleHyphen_collapseHyphens_head c r, hc, hb]
    · simp

theorem hasDoubleHyphen_collapseHyphens : ∀ (l : List Char),
    hasDoubleHyphen (collapseHyphens l) = false
  | [] => rfl
  | [_] => rfl
  | a :: b :: rest => by
    rw [collapseHyphens]
    split
    · exact hasDoubleHyphen_collapseHyphens (b :: rest)
    · next hab =>
      have hhead := hasDoubleHyphen_collapseHyphens_head b rest
      cases hcb : collapseHyphens (b :: rest) with
      | nil => rfl
      | cons x xs =>
        rw [hcb] at hhead
        simp at hhead
        rw [hasDoubleHyphen]
        have htail : hasDoubleHyphen (x :: xs) = false := by
          have h2 := hasDoubleHyphen_collapseHyphens (b :: rest)
          rw [hcb] at h2
          exact h2
        have hax : (a == '-' && x == '-') = false := by
          rw [hhead]
          simpa using hab
        rw [hax, htail]
        rfl

/-! Every part produced by `splitHyphen` on a text without doubled, leading
or trailing hyphens is nonempty. -/

theorem splitHyphen_segs_ne_nil : ∀ l : List Char, l ≠ [] →
    hasDoubleHyphen l = false →
    (∀ c, l.head? = some c → c ≠ '-') →
    (∀ c, l.getLast? = some c → c ≠ '-') →
    ∀ seg ∈ splitHyphen l, seg ≠ []
  | [], hne, _, _, _ => absurd rfl hne
  | [c], _, _, hh, _ => by
    intro seg hseg
    have hc : ¬(c == '-') = true := by simpa using hh c rfl
    have he : splitHyphen [c] = [[c]] := by
      rw [splitHyphen, splitHyphen]
      simp [hc]
    rw [he] at hseg
    simp at hseg
    subst hseg
    simp
  | a :: b :: rest, _, hd, hh, hl => by
    intro seg hseg
    have ha : ¬(a == '-') = true := by simpa using hh a rfl
    have hd2 : hasDoubleHyphen (b :: rest) = false := by
      rw [hasDoubleHyphen] at hd
      exact (Bool.or_eq_false_iff.mp hd).2
    by_cases hb : b = '-'
    · subst hb
      cases hrest : rest with
      | nil =>
        exfalso
        apply hl '-'
        · rw [hrest]
          rfl
        · rfl
      | cons r0 rr =>
        have hr0 : ¬(r0 == '-') = true := by
          rw [hrest, hasDoubleHyphen] at hd2
          rcases Bool.or_eq_false_iff.mp hd2 with ⟨h1, _⟩
          intro hcon
          rw [show ('-' == '-') = true from rfl, hcon] at h1
          simp at h1
        have IH := splitHyphen_segs_ne_nil rest (by rw [hrest]; simp)
          (by
            rw [hrest]
            rw [hrest, hasDoubleHyphen] at hd2
            exact (Bool.or_eq_false_iff.mp hd2).2)
          (by
            intro c hc
            rw [hrest] at hc
            simp at hc
            subst hc
            simpa using hr0)
          (by
            intro c hc
            apply hl c
            rw [List.getLast?_cons_cons]
            rw [hrest] at hc ⊢
            rw [List.getLast?_cons_cons]
            exact hc)
        cases hsp : splitHyphen rest with
        | nil => exact absurd hsp (splitHyphen_ne_nil rest)
        | cons s ss =>
          have e1 : splitHyphen ('-' :: rest) = [] :: s :: ss := by
            rw [splitHyphen, hsp]
            simp
          have e2 : splitHyphen (a :: '-' :: rest) = [a] :: s :: ss := by
            rw [splitHyphen, e1]
            simp [ha]
          rw [e2] at hseg
          rcases List.mem_cons.mp hseg with h1 | h1
          · subst h1; simp
          · exact IH seg (hsp ▸ List.mem_cons.mpr (by
              rcases List.mem_cons.mp h1 with h2 | h2
              · exact Or.inl h2
              · exact Or.inr h2))
    · have IH := splitHyphen_segs_ne_nil (b :: rest) (by simp) hd2
        (by
          intro c hc
          simp at hc
          subst hc
          exact hb)
        (by
          intro c hc
          apply hl c
          rw [List.getLast?_cons_cons]
          exact hc)
      cases hsp : splitHyphen (b :: rest) with
      | nil => exact absurd hsp (splitHyphen_ne_nil (b :: rest))
      | cons f t =>
        have e : splitHyphen (a :: b :: rest) = (a :: f) :: t := by
          rw [splitHyphen, hsp]
          simp [ha]
        rw [e] at hseg
        rcases List.mem_cons.mp hseg with h1 | h1
        · subst h1; simp
        · exact IH seg (hsp ▸ List.mem_cons_of_mem f h1)

/-! The normalizer fixes any text that is a hyphen-join of at most three
nonempty lowercase-letter segments, and every normalizer output has that
shape; idempotence follows. -/

theorem normalizeTagList_fixes_normal {segs : List (List Char)}
    (hne : segs ≠ [])
    (hseg : ∀ s ∈ segs, s ≠ [] ∧ ∀ c ∈ s, 97 ≤ c.toNat ∧ c.toNat ≤ 122)
    (hlen : segs.length ≤ 3) :
    normalizeTagList (joinHyphen segs) = joinHyphen segs := by
  have hchar : ∀ c ∈ joinHyphen segs, (97 ≤ c.toNat ∧ c.toNat ≤ 122) ∨ c = '-' := by
    intro c hc
    rcases mem_joinHyphen hc with h | ⟨s, hs, hcs⟩
    · exact Or.inr h
    · exact Or.inl ((hseg s hs).2 c hcs)
  have hnohy : ∀ s ∈ segs, '-' ∉ s := by
    intro s hs hmem
    have := (hseg s hs).2 '-' hmem
    rw [toNat_hyphen] at this
    omega
  have h1 : trimList (joinHyphen segs) = joinHyphen segs :=
    trimList_eq_self_of (fun c hc => (normChar_facts (hchar c hc)).1)
  have h2 : (joinHyphen segs).map jsToLower = joinHyphen segs :=
    map_eq_self_of (fun c hc => (normChar_facts (hchar c hc)).2.1)
  have h3 : replaceWs (joinHyphen segs) = joinHyphen segs :=
    replaceWs_eq_self_of (fun c hc => (normChar_facts (hchar c hc)).1)
  have h4 : List.filter isTagChar (joinHyphen segs) = joinHyphen segs :=
    List.filter_eq_self.mpr (fun c hc => (normChar_facts (hchar c hc)).2.2)
  have h5 : collapseHyphens (joinHyphen segs) = joinHyphen segs :=
    collapseHyphens_eq_self_of
      (hasDoubleHyphen_joinHyphen (fun s hs => ⟨(hseg s hs).1, hnohy s hs⟩))
  have h6 : stripHyphens (joinHyphen segs) = joinHyphen segs := by
    apply stripHyphens_eq_self_of
    · intro c hc
      cases segs with
      | nil => exact absurd rfl hne
      | cons s rest =>
        rcases hs : s with _ | ⟨d, ds⟩
        · exact absurd hs (hseg s (by simp)).1
        · obtain ⟨u, hu⟩ := @joinHyphen_head_cons s rest d ds hs
          rw [hs] at hu hc
          rw [hu] at hc
          simp at hc
          subst hc
          intro hcon
          exact hnohy s (by simp) (by rw [hs, hcon]; simp)
    · intro c hc
      obtain ⟨s, hs, hcs⟩ :=
        getLast?_joinHyphen hne (fun x hx => (hseg x hx).1) c hc
      intro hcon
      exact hnohy s hs (hcon ▸ hcs)
  have h7 : splitHyphen (joinHyphen segs) = segs :=
    splitHyphen_joinHyphen hne hnohy
  unfold normalizeTagList
  rw [h1, h2, h3, h4, h5, h6, h7, List.take_all_of_le hlen]

theorem normalizeTagList_idem (l : List Char) :
    normalizeTagList (normalizeTagList l) = normalizeTagList l := by
  have hmain : ∀ t6 : List Char,
      (∀ c ∈ t6, isTagChar c = true) →
      (∀ c ∈ t6, ¬(65 ≤ c.toNat ∧ c.toNat ≤ 90)) →
      hasDoubleHyphen t6 = false →
      (∀ c, t6.head? = some c → c ≠ '-') →
      (∀ c, t6.getLast? = some c → c ≠ '-') →
      normalizeTagList (joinHyphen ((splitHyphen t6).take 3)) =
        joinHyphen ((splitHyphen t6).take 3) := by
    intro t6 htag hup hdd hhd hlt
    cases ht6 : t6 with
    | nil =>
      show normalizeTagList (joinHyphen ((splitHyphen []).take 3)) = _
      rfl
    | cons x xs =>
      rw [← ht6]
      apply normalizeTagList_fixes_normal
      · intro hcon
        have := congrArg List.length hcon
        rw [List.length_take] at this
        have hpos : 0 < (splitHyphen t6).length :=
          List.length_pos.mpr (splitHyphen_ne_nil t6)
        simp only [List.length_nil] at this
        omega
      · intro s hs
        have hsub : s ∈ splitHyphen t6 := List.mem_of_mem_take hs
        constructor
        · exact splitHyphen_segs_ne_nil t6 (by rw [ht6]; simp) hdd hhd hlt s hsub
        · intro c hcs
          have hm := mem_of_mem_splitHyphen hsub c hcs
          have := tagChar_not_upper (htag c hm.1) (hup c hm.1)
          rcases this with h | h
          · exact h
          · exact absurd h hm.2
      · rw [List.length_take]
        omega
  have htag4 : ∀ c ∈ List.filter isTagChar (replaceWs ((trimList l).map jsToLower)),
      isTagChar c = true := by
    intro c hc
    exact List.of_mem_filter hc
  have hup4 : ∀ c ∈ List.filter isTagChar (replaceWs ((trimList l).map jsToLower)),
      ¬(65 ≤ c.toNat ∧ c.toNat ≤ 90) := by
    intro c hc
    have hc2 := List.mem_of_mem_filter hc
    rcases mem_replaceWs hc2 with h | h
    · subst h
      rw [toNat_hyphen]
      omega
    · obtain ⟨d, _, hd⟩ := List.mem_map.mp h
      rw [← hd]
      exact jsToLower_not_upper d
  have hdd6 : hasDoubleHyphen (stripHyphens (collapseHyphens
      (List.filter isTagChar (replaceWs ((trimList l).map jsToLower))))) = false := by
    set t5 := collapseHyphens (List.filter isTagChar (replaceWs ((trimList l).map jsToLower)))
    have hdd5 : hasDoubleHyphen t5 = false := hasDoubleHyphen_collapseHyphens _
    have hdw : hasDoubleHyphen (t5.dropWhile (· == '-')) = false := by
      have hdec := List.takeWhile_append_dropWhile (p := (· == '-')) (l := t5)
      rw [← hdec] at hdd5
      exact hasDoubleHyphen_of_append_right hdd5
    obtain ⟨t, ht⟩ := dropTrailingWhile_decomp (· == '-') (t5.dropWhile (· == '-'))
    rw [ht] at hdw
    exact hasDoubleHyphen_of_append_left hdw
  have hhd6 : ∀ c, (stripHyphens (collapseHyphens
      (List.filter isTagChar (replaceWs ((trimList l).map jsToLower))))).head? = some c →
      c ≠ '-' := by
    set t5 := collapseHyphens (List.filter isTagChar (replaceWs ((trimList l).map jsToLower)))
    intro c hc
    unfold stripHyphens at hc
    obtain ⟨t, ht⟩ := dropTrailingWhile_decomp (· == '-') (t5.dropWhile (· == '-'))
    cases hr : dropTrailingWhile (· == '-') (t5.dropWhile (· == '-')) with
    | nil => rw [hr] at hc; simp at hc
    | cons r rs =>
      rw [hr] at hc ht
      simp at hc
      have hhead : (t5.dropWhile (· == '-')).head? = some r := by
        rw [ht]
        rfl
      have hnr := head?_dropWhile_not hhead
      rw [hc] at hnr
      simpa using hnr
  have hlt6 : ∀ c, (stripHyphens (collapseHyphens
      (List.filter isTagChar (replaceWs ((trimList l).map jsToLower))))).getLast? = some c →
      c ≠ '-' := by
    intro c hc
    have := getLast?_dropTrailingWhile hc
    simpa using this
  have htag6 : ∀ c ∈ stripHyphens (collapseHyphens
      (List.filter isTagChar (replaceWs ((trimList l).map jsToLower)))),
      isTagChar c = true := by
    intro c hc
    exact htag4 c (mem_collapseHyphens (mem_stripHyphens hc))
  have hup6 : ∀ c ∈ stripHyphens (collapseHyphens
      (List.filter isTagChar (replaceWs ((trimList l).map jsToLower)))),
      ¬(65 ≤ c.toNat ∧ c.toNat ≤ 90) := by
    intro c hc
    exact hup4 c (mem_collapseHyphens (mem_stripHyphens hc))
  exact hmain _ htag6 hup6 hdd6 hhd6 hlt6

/-- `String.data` of `String.mk`. -/
theorem data_mk (l : List Char) : (String.mk l).data = l := rfl

/-- `normalizeTag` is idempotent (`String` version of the list lemma). -/
theorem normalizeTag_idem_aux (s : String) :
    normalizeTag (normalizeTag s) = normalizeTag s := by
  show String.mk (normalizeTagList (String.mk (normalizeTagList s.data)).data) = _
  rw [data_mk, normalizeTagList_idem]
  rfl

/-! Generic lookup and upsert lemmas. -/

theorem find?_eq_of_unique {α : Type} (p : α → Bool) : ∀ (l : List α) (a : α),
    a ∈ l → p a = true → (∀ b ∈ l, p b = true → b = a) → l.find? p = some a
  | [], a, ha, _, _ => by simp at ha
  | c :: cs, a, ha, hpa, huniq => by
    rw [List.find?_cons]
    by_cases hc : p c = true
    · rw [hc]
      rw [huniq c (by simp) hc]
    · simp only [hc]
      rcases List.mem_cons.mp ha with h | h
      · rw [← h] at hc
        exact absurd hpa hc
      · exact find?_eq_of_unique p cs a h hpa
          (fun b hb hpb => huniq b (List.mem_cons_of_mem c hb) hpb)

theorem mem_upsertVote {vs : List Vote} {v w : Vote}
    (h : w ∈ upsertVote vs v) : w = v ∨ w ∈ vs := by
  unfold upsertVote at h
  split at h
  · obtain ⟨x, hx, hfx⟩ := List.mem_map.mp h
    by_cases hm : (x.userId == v.userId) = true
    · rw [hm] at hfx
      simp at hfx
      exact Or.inl hfx.symm
    · simp only [hm, Bool.false_eq_true, if_false] at hfx
      exact Or.inr (hfx ▸ hx)
  · rcases List.mem_append.mp h with h1 | h1
    · exact Or.inr h1
    · simp at h1
      exact Or.inl h1

theorem find?_map_upsert_aux (u : String) (v : Vote) (hv : v.userId = u) :
    ∀ vs : List Vote, vs.any (fun w => w.userId == u) = true →
    ((vs.map (fun w => if w.userId == u then v else w)).find?
      (fun w => w.userId == u)) = some v
  | [], h => by simp at h
  | c :: cs, h => by
    rw [List.map_cons, List.find?_cons]
    by_cases hc : (c.userId == u) = true
    · rw [hc]
      simp only [if_true, hv, beq_self_eq_true]
    · simp only [hc, Bool.false_eq_true, if_false]
      rw [List.any_cons] at h
      rcases Bool.or_eq_true_iff.mp h with h1 | h1
      · exact absurd h1 (by simpa using hc)
      · exact find?_map_upsert_aux u v hv cs h1

theorem find?_append_last (u : String) (v : Vote) (hv : v.userId = u) :
    ∀ vs : List Vote, vs.any (fun w => w.userId == u) = false →
    ((vs ++ [v]).find? (fun w => w.userId == u)) = some v
  | [], _ => by simp [hv]
  | c :: cs, h => by
    rw [List.any_cons] at h
    rcases Bool.or_eq_false_iff.mp h with ⟨h1, h2⟩
    rw [List.cons_append, List.find?_cons, h1]
    exact find?_append_last u v hv cs h2

theorem find?_upsertVote_self (vs : List Vote) (v : Vote) :
    (upsertVote vs v).find? (fun w => w.userId == v.userId) = some v := by
  unfold upsertVote
  split
  · next h => exact find?_map_upsert_aux v.userId v rfl vs h
  · next h => exact find?_append_last v.userId v rfl vs (by simpa using h)

theorem upsertVote_entry_of_ne {vs : List Vote} {v w : Vote}
    (h : w ∈ upsertVote vs v) (hne : w.userId ≠ v.userId) : w ∈ vs := by
  rcases mem_upsertVote h with h1 | h1
  · exact absurd (h1 ▸ rfl) hne
  · exact h1

theorem upsertKeyword_ids_of_mem {ks : List Keyword} {k : Keyword}
    (h : ks.any (fun w => w.id == k.id) = true) :
    (upsertKeyword ks k).map Keyword.id = ks.map Keyword.id := by
  unfold upsertKeyword
  rw [if_pos h, List.map_map]
  apply List.map_congr_left
  intro w _
  by_cases hw : (w.id == k.id) = true
  · simp only [Function.comp_apply, hw, if_true]
    exact (by simpa using hw : w.id = k.id).symm
  · simp only [Function.comp_apply, hw, Bool.false_eq_true, if_false]

theorem upsertKeyword_of_not_mem {ks : List Keyword} {k : Keyword}
    (h : ks.any (fun w => w.id == k.id) = false) :
    upsertKeyword ks k = ks ++ [k] := by
  unfold upsertKeyword
  rw [if_neg (by simp [h])]

theorem mem_upsertKeyword {ks : List Keyword} {k w : Keyword}
    (h : w ∈ upsertKeyword ks k) : w = k ∨ w ∈ ks := by
  unfold upsertKeyword at h
  split at h
  · obtain ⟨x, hx, hfx⟩ := List.mem_map.mp h
    by_cases hm : (x.id == k.id) = true
    · rw [hm] at hfx
      simp at hfx
      exact Or.inl hfx.symm
    · simp only [hm, Bool.false_eq_true, if_false] at hfx
      exact Or.inr (hfx ▸ hx)
  · rcases List.mem_append.mp h with h1 | h1
    · exact Or.inr h1
    · simp at h1
      exact Or.inl h1

theorem upsertKeyword_texts_of_uniq {ks : List Keyword} {a k' : Keyword}
    (hmem : a ∈ ks) (huniq : ∀ w ∈ ks, w.id = a.id → w = a)
    (hid : k'.id = a.id) (htext : k'.text = a.text) :
    (upsertKeyword ks k').map Keyword.text = ks.map Keyword.text := by
  unfold upsertKeyword
  rw [if_pos (by
    rw [List.any_eq_true]
    exact ⟨a, hmem, by simp [hid]⟩)]
  rw [List.map_map]
  apply List.map_congr_left
  intro w hw
  by_cases hwm : (w.id == k'.id) = true
  · have hwa : w = a := huniq w hw (by rw [← hid]; simpa using hwm)
    simp only [Function.comp_apply, hwm, if_true]
    rw [htext, hwa]
  · simp only [Function.comp_apply, hwm, Bool.false_eq_true, if_false]

theorem find?_map_upsertKeyword_aux (k : Keyword) :
    ∀ ks : List Keyword, ks.any (fun w => w.id == k.id) = true →
    ((ks.map (fun w => if w.id == k.id then k else w)).find?
      (fun w => w.id == k.id)) = some k
  | [], h => by simp at h
  | c :: cs, h => by
    rw [List.map_cons, List.find?_cons]
    by_cases hc : (c.id == k.id) = true
    · rw [hc]
      simp
    · simp only [hc, Bool.false_eq_true, if_false]
      rw [List.any_cons] at h
      rcases Bool.or_eq_true_iff.mp h with h1 | h1
      · exact absurd h1 (by simpa using hc)
      · exact find?_map_upsertKeyword_aux k cs h1

theorem find?_upsertKeyword_self {ks : List Keyword} (k : Keyword)
    (h : ks.any (fun w => w.id == k.id) = true) :
    (upsertKeyword ks k).find? (fun w => w.id == k.id) = some k := by
  unfold upsertKeyword
  rw [if_pos h]
  exact find?_map_upsertKeyword_aux k ks h

/-! Case analyses of the session operations. -/

theorem rejoinSession_state (st : Option PlanningSession) (sessionId userCode : String) :
    (rejoinSession st sessionId userCode).2 = st := by
  cases st with
  | none => rfl
  | some s =>
    show (rejoinSession (some s) sessionId userCode).2 = some s
    rw [rejoinSession]
    split
    · rfl
    · split
      · rfl
      · cases s.participants.find? (fun p => p.userCode == userCode) <;> rfl

theorem joinSession_none (sessionId name uid code : String) (now : Nat) :
    (joinSession none sessionId name uid code now).2 = none := rfl

theorem joinSession_cases (s : PlanningSession) (sessionId name uid code : String) (now : Nat) :
    (joinSession (some s) sessionId name uid code now).2 = some s ∨
    (joinSession (some s) sessionId name uid code now).2 =
      some { s with participants :=
        upsertParticipant s.participants ⟨uid, jsTrim name, code, now, false, false⟩ } := by
  show (joinSession (some s) sessionId name uid code now).2 = _ ∨ _
  rw [joinSession]
  split
  · exact Or.inl rfl
  · split
    · exact Or.inl rfl
    · split
      · exact Or.inl rfl
      · split
        · exact Or.inl rfl
        · exact Or.inr rfl

theorem addKeyword_none (sessionId uid text : String) (cat : Category) (kid : String) (now : Nat) :
    (addKeyword none sessionId uid text cat kid now).2 = none := rfl

theorem addKeyword_cases (s : PlanningSession) (sessionId uid text : String)
    (cat : Category) (kid : String) (now : Nat) :
    (addKeyword (some s) sessionId uid text cat kid now).2 = some s ∨
    (∃ existing, s.keywords.find? (fun k => normalizeTag k.text == normalizeTag text) = some existing ∧
      (addKeyword (some s) sessionId uid text cat kid now).2 = some { s with
        keywords := upsertKeyword s.keywords { existing with
          votes := upsertVote existing.votes ⟨uid, 1, now⟩,
          totalScore := sumVotes (upsertVote existing.votes ⟨uid, 1, now⟩) } }) ∨
    (s.keywords.find? (fun k => normalizeTag k.text == normalizeTag text) = none ∧
      (addKeyword (some s) sessionId uid text cat kid now).2 = some { s with
        keywords := upsertKeyword s.keywords ⟨kid, normalizeTag text, cat, [], 0, uid, now⟩,
        consensus := { s.consensus with pending := s.consensus.pending ++ [kid] } }) := by
  show _ ∨ _ ∨ _
  rw [addKeyword]
  dsimp only
  split
  · exact Or.inl rfl
  · split
    · exact Or.inl rfl
    · split
      · exact Or.inl rfl
      · cases h : s.keywords.find? (fun k => normalizeTag k.text == normalizeTag text) with
        | some existing => exact Or.inr (Or.inl ⟨existing, rfl, rfl⟩)
        | none => exact Or.inr (Or.inr ⟨rfl, rfl⟩)

theorem checkConsensus_cases (s : PlanningSession) (kid : String) :
    checkConsensus s kid = s ∨
    (kid ∈ s.consensus.pending ∧ checkConsensus s kid = { s with consensus :=
      { pending := s.consensus.pending.erase kid,
        finalized := s.consensus.finalized ++ [kid] } }) := by
  rw [checkConsensus]
  cases h : s.keywords.find? (fun k => k.id == kid) with
  | none => exact Or.inl rfl
  | some k =>
    dsimp only
    split
    · split
      · next hmem => exact Or.inr ⟨hmem, rfl⟩
      · exact Or.inl rfl
    · exact Or.inl rfl

theorem vote_none (sessionId uid kid : String) (v : Int) (now : Nat) :
    (vote none sessionId uid kid v now).2 = none := rfl

theorem vote_cases (s : PlanningSession) (sessionId uid kid : String) (v : Int) (now : Nat) :
    (vote (some s) sessionId uid kid v now).2 = some s ∨
    (∃ k, s.keywords.find? (fun w => w.id == kid) = some k ∧
      (vote (some s) sessionId uid kid v now).2 =
        some (checkConsensus { s with keywords := upsertKeyword s.keywords { k with
          votes := upsertVote k.votes ⟨uid, v, now⟩,
          totalScore := sumVotes (upsertVote k.votes ⟨uid, v, now⟩) } } kid)) := by
  show _ ∨ _
  rw [vote]
  dsimp only
  split
  · exact Or.inl rfl
  · split
    · exact Or.inl rfl
    · cases h : s.keywords.find? (fun w => w.id == kid) with
      | none => exact Or.inl rfl
      | some k => exact Or.inr ⟨k, rfl, rfl⟩

theorem createSession_ok {st : Option PlanningSession}
    {d cn uid code : String} {now : Nat}
    {res : String × String × String} {st1 : Option PlanningSession}
    (h : createSession st d cn uid code now = (Except.ok res, st1)) :
    res = ("current", uid, code) ∧
    st1 = some ⟨"current", uid, uid, d, [⟨uid, jsTrim cn, code, now, true, true⟩],
      [], ⟨[], []⟩, .active, now, now + 24 * 60 * 60 * 1000⟩ := by
  rw [createSession] at h
  split at h
  · simp at h
  · rw [Prod.mk.injEq] at h
    obtain ⟨h1, h2⟩ := h
    constructor
    · have h1e : Except.ok ("current", uid, code) = Except.ok res := h1
      simpa using h1e.symm
    · exact h2.symm

theorem deleteSession_cases (st : Option PlanningSession) (sessionId userId : String) :
    (deleteSession st sessionId userId).2 = st ∨
    (deleteSession st sessionId userId).2 = none := by
  cases st with
  | none => exact Or.inl rfl
  | some s =>
    show _ ∨ _
    rw [deleteSession]
    split
    · exact Or.inl rfl
    · split
      · exact Or.inl rfl
      · exact Or.inr rfl

theorem cleanupExpiredSession_cases (st : Option PlanningSession) (now : Nat) :
    cleanupExpiredSession st now = st ∨ cleanupExpiredSession st now = none := by
  cases st with
  | none => exact Or.inl rfl
  | some s =>
    rw [cleanupExpiredSession]
    split
    · exact Or.inr rfl
    · exact Or.inl rfl

/-! Claim theorems. -/

/-- C8: the tag normalization function is total (it is a total Lean function
on all of `String`) and idempotent: `normalizeTag (normalizeTag s) =
normalizeTag s` for every string `s`, so the duplicate check of `addKeyword`
(an equality test of normalized forms) is a pure equality check. -/
theorem normalizeTag_total_idempotent :
    ∀ s : String, normalizeTag (normalizeTag s) = normalizeTag s :=
  normalizeTag_idem_aux

/-- C6 (code bug): when an `addTag` call is absorbed into an existing tag,
the REST route `POST /current/keywords` still broadcasts a `keyword-added`
event and no `vote-updated` event: participant `u3` re-adds `coffee-shop`,
the tag count stays at one (the call was absorbed as a vote), yet the
emitted events are `keyword-added k1` plus session stats — contradicting
the repo's own `test-duplicate-fixes.md`, which requires routes to emit
`vote-updated` for duplicates. -/
theorem duplicate_addTag_emits_keywordAdded :
    keywordCountOf (postCurrentKeywords (some exampleSession5) "u3" "coffee-shop"
        Category.food "k9" 5).2.2 = keywordCountOf (some exampleSession5) ∧
    BroadcastEvent.keywordAdded "k1" ∈
      (postCurrentKeywords (some exampleSession5) "u3" "coffee-shop"
        Category.food "k9" 5).2.1 ∧
    BroadcastEvent.voteUpdated "k1" ∉
      (postCurrentKeywords (some exampleSession5) "u3" "coffee-shop"
        Category.food "k9" 5).2.1 := by
  decide

/-- C3 (counterexample): a session whose `expiresAt` (0) is before the
current time (100) is still returned by `getSession` and can still be
joined — the claimed lazy expiration check on reads does not exist in the
code. -/
theorem expired_session_read_cex :
    exampleSession1.expiresAt < 100 ∧
    getSession (some exampleSession1) "current" = some exampleSession1 ∧
    (joinSession (some exampleSession1) "current" "Bob" "u2" "202" 100).1.success = true ∧
    (joinSession (some exampleSession1) "current" "Bob" "u2" "202" 100).1.error = none := by
  decide

/-- C3 (amended): `getSession` and `joinSession` perform no expiration
check: even when `expiresAt < now`, `getSession` returns the session and a
well-formed `joinSession` succeeds and inserts the participant; expiration
is enforced only by `cleanupExpiredSession` (the timer/sweep path), which
removes the session exactly in that situation. -/
theorem expiration_lazy_amended (s : PlanningSession) (now : Nat)
    (hexp : s.expiresAt < now) :
    getSession (some s) s.id = some s ∧
    cleanupExpiredSession (some s) now = none ∧
    (∀ name uid code, s.status = SessionStatus.active →
      (validateUserName name).isValid = true →
      isNameTakenInSession s name = false →
      (joinSession (some s) s.id name uid code now).1.success = true ∧
      (joinSession (some s) s.id name uid code now).2 =
        some { s with participants :=
          upsertParticipant s.participants ⟨uid, jsTrim name, code, now, false, false⟩ }) := by
  refine ⟨?_, ?_, ?_⟩
  · show (if s.id = s.id then some s else none) = some s
    rw [if_pos rfl]
  · show (if s.expiresAt < now then none else some s) = none
    rw [if_pos hexp]
  · intro name uid code hstatus hvalid hname
    show ((joinSession (some s) s.id name uid code now).1.success = true ∧ _)
    rw [joinSession]
    rw [if_neg (by simp), if_neg (by simp [hstatus]),
      if_neg (by simp [hvalid]), if_neg (by simp [hname])]
    exact ⟨rfl, rfl⟩

/-- C3 (amended) witness at a concrete expired session. -/
theorem expiration_lazy_amended_witness :
    exampleSession1.expiresAt < 100 ∧
    getSession (some exampleSession1) "current" = some exampleSession1 ∧
    cleanupExpiredSession (some exampleSession1) 100 = none ∧
    (joinSession (some exampleSession1) "current" "Bob" "u2" "202" 100).1.success = true := by
  have h := expiration_lazy_amended exampleSession1 100 (by decide)
  exact ⟨by decide, h.1, h.2.1,
    (h.2.2 "Bob" "u2" "202" (by decide) (by decide) (by decide)).1⟩

/-- On an invalid tag text, `validateTag` always reports an error
message. -/
theorem validateTag_valid_or_error (text : String) :
    (validateTag text).isValid = true ∨ (validateTag text).error ≠ none := by
  rw [validateTag]
  dsimp only
  split_ifs <;> simp

theorem validateTag_error_of_invalid {text : String}
    (h : (validateTag text).isValid = false) :
    (validateTag text).error ≠ none := by
  rcases validateTag_valid_or_error text with h1 | h1
  · rw [h] at h1
    simp at h1
  · exact h1

/-- C7 (counterexample): an `addTag` whose text fails validation and an
`addTag` whose participant does not exist produce the very same result
(`null`, state unchanged): the failure kinds are not distinguishable at the
operation's boundary, and no suggestion is carried. -/
theorem validation_error_indistinct_cex :
    (validateTag "coffee shop").isValid = false ∧
    (validateTag "coffee").isValid = true ∧
    (addKeyword (some exampleSession1) "current" "u1" "coffee shop"
      Category.food "k9" 5).1 = none ∧
    (addKeyword (some exampleSession1) "current" "ghost" "coffee"
      Category.food "k9" 5).1 = none ∧
    (addKeyword (some exampleSession1) "current" "u1" "coffee shop"
        Category.food "k9" 5) =
      (addKeyword (some exampleSession1) "current" "ghost" "coffee"
        Category.food "k9" 5) := by
  decide

/-- C7 (amended): when the raw text is rejected by the tag validator,
`addKeyword` creates no tag and no vote (result `none`, state unchanged) —
but the failure value is the same `none` used for unknown
sessions/participants; the structured error and suggestion exist only in
`validateTag`'s own result, which `addKeyword` discards. -/
theorem validation_failure_amended (st : Option PlanningSession)
    (sessionId userId text : String) (cat : Category) (kid : String) (now : Nat)
    (hinv : (validateTag text).isValid = false) :
    (addKeyword st sessionId userId text cat kid now).1 = none ∧
    (addKeyword st sessionId userId text cat kid now).2 = st ∧
    (validateTag text).error ≠ none := by
  have he : addKeyword st sessionId userId text cat kid now = (none, st) := by
    cases st with
    | none => rfl
    | some s =>
      rw [addKeyword]
      by_cases h1 : s.id ≠ sessionId
      · simp [h1]
      · by_cases h2 : (!s.participants.any fun p => p.id == userId) = true
        · simp [h1, h2]
        · simp [h1, h2, hinv]
  exact ⟨by rw [he], by rw [he], validateTag_error_of_invalid hinv⟩

/-- C7 (amended) witness: `"coffee shop"` is rejected with a structured
error and the suggestion `"coffee-shop"`, and the operation mutates
nothing. -/
theorem validation_failure_amended_witness :
    (addKeyword (some exampleSession1) "current" "u1" "coffee shop"
      Category.food "k9" 5).1 = none ∧
    (addKeyword (some exampleSession1) "current" "u1" "coffee shop"
      Category.food "k9" 5).2 = some exampleSession1 ∧
    (validateTag "coffee shop").error ≠ none ∧
    (validateTag "coffee shop").suggestion = some "coffee-shop" := by
  have h := validation_failure_amended (some exampleSession1) "current" "u1"
    "coffee shop" Category.food "k9" 5 (by decide)
  exact ⟨h.1, h.2.1, h.2.2, by decide⟩

/-- C1: after a `vote` on a pending tag of a session with at least one
participant, the tag moves to `consensus.finalized` iff the updated vote
multiset satisfies the consensus rule — `(+1 count)/n ≥ 0.6` and
`(-1 count)/n < 0.25` (`consensusReached`) — and stays in
`consensus.pending` iff it does not. -/
theorem vote_consensus_transition
    (s : PlanningSession) (userId keywordId : String) (value : Int) (now : Nat)
    (k : Keyword)
    (hn : 1 ≤ s.participants.length)
    (hpart : s.participants.any (fun p => p.id == userId) = true)
    (hfind : s.keywords.find? (fun w => w.id == keywordId) = some k)
    (hpend : keywordId ∈ s.consensus.pending)
    (hnotfin : keywordId ∉ s.consensus.finalized)
    (hnodup : s.consensus.pending.Nodup)
    (hvals : ∀ w ∈ k.votes, w.value = 1 ∨ w.value = -1)
    (hval : value = 1 ∨ value = -1) :
    (keywordId ∈ finalizedOf (vote (some s) s.id userId keywordId value now).2 ↔
      consensusReached
        ((upsertVote k.votes ⟨userId, value, now⟩).filter (fun w => w.value == 1)).length
        ((upsertVote k.votes ⟨userId, value, now⟩).filter (fun w => w.value == -1)).length
        s.participants.length) ∧
    (keywordId ∈ pendingOf (vote (some s) s.id userId keywordId value now).2 ↔
      ¬ consensusReached
        ((upsertVote k.votes ⟨userId, value, now⟩).filter (fun w => w.value == 1)).length
        ((upsertVote k.votes ⟨userId, value, now⟩).filter (fun w => w.value == -1)).length
        s.participants.length) := by
  have hid : k.id = keywordId := by
    have := List.find?_some hfind
    simpa using this
  have hkmem : k ∈ s.keywords := List.mem_of_find?_eq_some hfind
  have hvnew : ∀ w ∈ upsertVote k.votes ⟨userId, value, now⟩,
      w.value = 1 ∨ w.value = -1 := by
    intro w hw
    rcases mem_upsertVote hw with h | h
    · rw [h]
      exact hval
    · exact hvals w h
  have epos : (upsertVote k.votes ⟨userId, value, now⟩).filter
        (fun v => decide (0 < v.value)) =
      (upsertVote k.votes ⟨userId, value, now⟩).filter (fun w => w.value == 1) := by
    apply List.filter_congr
    intro w hw
    rcases hvnew w hw with h | h <;> rw [h] <;> rfl
  have eneg : (upsertVote k.votes ⟨userId, value, now⟩).filter
        (fun v => decide (v.value < 0)) =
      (upsertVote k.votes ⟨userId, value, now⟩).filter (fun w => w.value == -1) := by
    apply List.filter_congr
    intro w hw
    rcases hvnew w hw with h | h <;> rw [h] <;> rfl
  have hv2 : (vote (some s) s.id userId keywordId value now).2 =
      some (checkConsensus
        (PlanningSession.mk s.id s.creator s.adminUserId s.description s.participants
          (upsertKeyword s.keywords
            (Keyword.mk k.id k.text k.category (upsertVote k.votes ⟨userId, value, now⟩)
              (sumVotes (upsertVote k.votes ⟨userId, value, now⟩)) k.addedBy k.createdAt))
          s.consensus s.status s.createdAt s.expiresAt) keywordId) := by
    rw [vote]
    rw [if_neg (by simp), if_neg (by simp [hpart]), hfind]
  rw [hv2]
  have hany : s.keywords.any (fun w => w.id ==
      (Keyword.mk k.id k.text k.category (upsertVote k.votes ⟨userId, value, now⟩)
        (sumVotes (upsertVote k.votes ⟨userId, value, now⟩)) k.addedBy k.createdAt).id)
      = true := by
    rw [List.any_eq_true]
    exact ⟨k, hkmem, by simp⟩
  have hfind2 : (upsertKeyword s.keywords
      (Keyword.mk k.id k.text k.category (upsertVote k.votes ⟨userId, value, now⟩)
        (sumVotes (upsertVote k.votes ⟨userId, value, now⟩)) k.addedBy k.createdAt)).find?
      (fun w => w.id == keywordId) =
      some (Keyword.mk k.id k.text k.category (upsertVote k.votes ⟨userId, value, now⟩)
        (sumVotes (upsertVote k.votes ⟨userId, value, now⟩)) k.addedBy k.createdAt) := by
    have hf := @find?_upsertKeyword_self
      s.keywords
      (Keyword.mk k.id k.text k.category (upsertVote k.votes ⟨userId, value, now⟩)
        (sumVotes (upsertVote k.votes ⟨userId, value, now⟩)) k.addedBy k.createdAt) hany
    have hpred : (fun (w : Keyword) => w.id ==
        (Keyword.mk k.id k.text k.category (upsertVote k.votes ⟨userId, value, now⟩)
          (sumVotes (upsertVote k.votes ⟨userId, value, now⟩)) k.addedBy k.createdAt).id) =
        (fun (w : Keyword) => w.id == keywordId) := by
      funext w
      show (w.id == k.id) = (w.id == keywordId)
      rw [hid]
    rw [hpred] at hf
    exact hf
  rw [checkConsensus]
  dsimp only
  rw [hfind2]
  dsimp only
  rw [epos, eneg]
  by_cases hcond : consensusReached
      ((upsertVote k.votes ⟨userId, value, now⟩).filter (fun w => w.value == 1)).length
      ((upsertVote k.votes ⟨userId, value, now⟩).filter (fun w => w.value == -1)).length
      s.participants.length
  · rw [if_pos hcond, if_pos hpend]
    constructor
    · constructor
      · intro _
        exact hcond
      · intro _
        show keywordId ∈ s.consensus.finalized ++ [keywordId]
        simp
    · constructor
      · intro hmem
        exact absurd (List.mem_of_mem_erase hmem) (by
          intro _
          exact absurd hmem hnodup.not_mem_erase)
      · intro hc
        exact absurd hcond hc
  · rw [if_neg hcond]
    constructor
    · constructor
      · intro hmem
        exact absurd hmem hnotfin
      · intro hc
        exact absurd hc hcond
    · constructor
      · intro _
        exact hcond
      · intro _
        exact hpend

/-- C1 witness: in the five-participant session, a third `+1` vote (`0.6`
positive ratio, no negatives) finalizes the tag, while a `-1` instead
(`0.4` and `0.2` ratios) leaves it pending. -/
theorem vote_consensus_transition_witness :
    "k1" ∈ finalizedOf (vote (some exampleSession5) "current" "u3" "k1" 1 5).2 ∧
    "k1" ∉ pendingOf (vote (some exampleSession5) "current" "u3" "k1" 1 5).2 ∧
    "k1" ∈ pendingOf (vote (some exampleSession5) "current" "u3" "k1" (-1) 5).2 ∧
    "k1" ∉ finalizedOf (vote (some exampleSession5) "current" "u3" "k1" (-1) 5).2 := by
  have h1 := vote_consensus_transition exampleSession5 "u3" "k1" 1 5
    ⟨"k1", "coffee-shop", Category.food, [⟨"u1", 1, 0⟩, ⟨"u2", 1, 0⟩], 2, "u1", 0⟩
    (by decide) (by decide) (by decide) (by decide) (by decide) (by decide)
    (by decide) (by decide)
  have h2 := vote_consensus_transition exampleSession5 "u3" "k1" (-1) 5
    ⟨"k1", "coffee-shop", Category.food, [⟨"u1", 1, 0⟩, ⟨"u2", 1, 0⟩], 2, "u1", 0⟩
    (by decide) (by decide) (by decide) (by decide) (by decide) (by decide)
    (by decide) (by decide)
  refine ⟨h1.1.mpr (by decide), ?_, h2.2.mpr (by decide), ?_⟩
  · intro hmem
    exact (h1.2.mp hmem) (by decide)
  · intro hmem
    exact absurd (h2.1.mp hmem) (by decide)

/-- C4: an `addTag` whose text normalizes to the canonical text of the
existing tag `t` creates no new tag: the keyword id list is unchanged and
the returned tag is `t` itself (`wasNewlyCreated = false`), with a `+1`
vote by the caller upserted on top of any prior vote (including a `-1`) and
the score recomputed as the sum of the current vote values. -/
theorem addTag_duplicate_upsert
    (s : PlanningSession) (userId text : String) (category : Category)
    (newKeywordId : String) (now : Nat) (t : Keyword)
    (hpart : s.participants.any (fun p => p.id == userId) = true)
    (hvalid : (validateTag text).isValid = true)
    (hmem : t ∈ s.keywords)
    (htext : normalizeTag t.text = normalizeTag text)
    (huniq : ∀ w ∈ s.keywords, normalizeTag w.text = normalizeTag text → w = t) :
    ∃ t', (addKeyword (some s) s.id userId text category newKeywordId now).1 = some t' ∧
      t'.id = t.id ∧
      t'.votes = upsertVote t.votes ⟨userId, 1, now⟩ ∧
      t'.totalScore = sumVotes (upsertVote t.votes ⟨userId, 1, now⟩) ∧
      t'.votes.find? (fun w => w.userId == userId) = some ⟨userId, 1, now⟩ ∧
      ∃ s', (addKeyword (some s) s.id userId text category newKeywordId now).2 = some s' ∧
        s'.keywords.map Keyword.id = s.keywords.map Keyword.id ∧
        s'.consensus = s.consensus ∧
        s'.participants = s.participants := by
  have hfind : s.keywords.find? (fun w => normalizeTag w.text == normalizeTag text)
      = some t := by
    apply find?_eq_of_unique _ _ t hmem (by simp [htext])
    intro b hb hpb
    exact huniq b hb (by simpa using hpb)
  have he : addKeyword (some s) s.id userId text category newKeywordId now =
      (some (Keyword.mk t.id t.text t.category (upsertVote t.votes ⟨userId, 1, now⟩)
          (sumVotes (upsertVote t.votes ⟨userId, 1, now⟩)) t.addedBy t.createdAt),
        some (PlanningSession.mk s.id s.creator s.adminUserId s.description s.participants
          (upsertKeyword s.keywords
            (Keyword.mk t.id t.text t.category (upsertVote t.votes ⟨userId, 1, now⟩)
              (sumVotes (upsertVote t.votes ⟨userId, 1, now⟩)) t.addedBy t.createdAt))
          s.consensus s.status s.createdAt s.expiresAt)) := by
    rw [addKeyword]
    rw [if_neg (by simp), if_neg (by simp [hpart]), if_neg (by simp [hvalid])]
    dsimp only
    rw [hfind]
  refine ⟨Keyword.mk t.id t.text t.category (upsertVote t.votes ⟨userId, 1, now⟩)
      (sumVotes (upsertVote t.votes ⟨userId, 1, now⟩)) t.addedBy t.createdAt,
    by rw [he], rfl, rfl, rfl, find?_upsertVote_self t.votes ⟨userId, 1, now⟩,
    PlanningSession.mk s.id s.creator s.adminUserId s.description s.participants
      (upsertKeyword s.keywords
        (Keyword.mk t.id t.text t.category (upsertVote t.votes ⟨userId, 1, now⟩)
          (sumVotes (upsertVote t.votes ⟨userId, 1, now⟩)) t.addedBy t.createdAt))
      s.consensus s.status s.createdAt s.expiresAt,
    by rw [he], ?_, rfl, rfl⟩
  show (upsertKeyword s.keywords
      (Keyword.mk t.id t.text t.category (upsertVote t.votes ⟨userId, 1, now⟩)
        (sumVotes (upsertVote t.votes ⟨userId, 1, now⟩)) t.addedBy t.createdAt)).map
      Keyword.id = s.keywords.map Keyword.id
  apply upsertKeyword_ids_of_mem
  rw [List.any_eq_true]
  exact ⟨t, hmem, by simp⟩

/-- C4 witness: participant `u2` had voted `-1` on `hiking`; re-adding
`hiking` overwrites it with `+1`, creates no tag, and recomputes the
score. -/
theorem addTag_duplicate_upsert_witness :
    ((addKeyword (some exampleSession2) exampleSession2.id "u2" "hiking" Category.activity
        "k9" 9).1.map Keyword.id) = some "k1" ∧
    ((addKeyword (some exampleSession2) exampleSession2.id "u2" "hiking" Category.activity
        "k9" 9).1.map (fun t => t.votes.find? (fun w => w.userId == "u2"))) =
      some (some ⟨"u2", 1, 9⟩) ∧
    keywordCountOf (addKeyword (some exampleSession2) exampleSession2.id "u2" "hiking"
        Category.activity "k9" 9).2 = 1 := by
  obtain ⟨t', h1, h2, h3, h4, h5, s', hs1, hs2, hs3, hs4⟩ :=
    addTag_duplicate_upsert exampleSession2 "u2" "hiking" Category.activity "k9" 9
      ⟨"k1", "hiking", Category.activity, [⟨"u2", -1, 3⟩], -1, "u1", 0⟩
      (by decide) (by decide) (by decide) (by decide) (by decide)
  refine ⟨?_, ?_, ?_⟩
  · rw [h1]
    simp [h2]
  · rw [h1]
    simp [h5]
  · rw [hs1]
    show s'.keywords.length = 1
    have hlen := congrArg List.length hs2
    simpa using hlen

/-- On a text that fails validation, `addKeyword` returns `null` and leaves
the state untouched. -/
theorem addKeyword_invalid_state (st : Option PlanningSession)
    (sessionId userId text : String) (cat : Category) (kid : String) (now : Nat)
    (hinv : (validateTag text).isValid = false) :
    addKeyword st sessionId userId text cat kid now = (none, st) := by
  cases st with
  | none => rfl
  | some s =>
    rw [addKeyword]
    by_cases h1 : s.id ≠ sessionId
    · simp [h1]
    · by_cases h2 : (!s.participants.any fun p => p.id == userId) = true
      · simp [h1, h2]
      · simp [h1, h2, hinv]

/-- Effect of a sequence of `addKeyword` calls on a well-formed session:
the session survives, participants are untouched, stored texts stay
normalized and duplicate-free, the text multiset grows exactly by the
normalized texts of the valid calls, and keyword ids only come from the
original session or the calls. -/
theorem runAdds_spec (sessionId : String) : ∀ (calls : List AddCall) (s : PlanningSession),
    s.id = sessionId →
    (∀ c ∈ calls, s.participants.any (fun p => p.id == c.userId) = true) →
    (calls.map AddCall.newKeywordId).Nodup →
    (∀ c ∈ calls, c.newKeywordId ∉ s.keywords.map Keyword.id) →
    (∀ k ∈ s.keywords, normalizeTag k.text = k.text) →
    (s.keywords.map Keyword.text).Nodup →
    (s.keywords.map Keyword.id).Nodup →
    ∃ s', runAdds (some s) sessionId calls = some s' ∧
      s'.id = sessionId ∧
      s'.participants = s.participants ∧
      (∀ k ∈ s'.keywords, normalizeTag k.text = k.text) ∧
      (s'.keywords.map Keyword.text).Nodup ∧
      (s'.keywords.map Keyword.id).Nodup ∧
      (∀ x, x ∈ s'.keywords.map Keyword.text ↔
        (x ∈ s.keywords.map Keyword.text ∨
          x ∈ (calls.filter (fun c => (validateTag c.text).isValid)).map
            (fun c => normalizeTag c.text))) ∧
      (∀ i, i ∈ s'.keywords.map Keyword.id →
        i ∈ s.keywords.map Keyword.id ∨ i ∈ calls.map AddCall.newKeywordId)
  | [], s, hid, _, _, _, hnorm, hnd, hndid =>
    ⟨s, rfl, hid, rfl, hnorm, hnd, hndid, fun x => by simp, fun i hi => Or.inl hi⟩
  | c :: rest, s, hid, husers, hkidsnd, hfresh, hnorm, hnd, hndid => by
    rw [runAdds]
    by_cases hv : (validateTag c.text).isValid = true
    · have hu := husers c (List.mem_cons_self c rest)
      cases hfind : s.keywords.find?
          (fun k => normalizeTag k.text == normalizeTag c.text) with
      | some existing =>
        have hmemex : existing ∈ s.keywords := List.mem_of_find?_eq_some hfind
        have hpredex : normalizeTag existing.text = normalizeTag c.text := by
          have := List.find?_some hfind
          simpa using this
        have he : addKeyword (some s) sessionId c.userId c.text c.category
            c.newKeywordId c.now =
            (some (Keyword.mk existing.id existing.text existing.category
                (upsertVote existing.votes ⟨c.userId, 1, c.now⟩)
                (sumVotes (upsertVote existing.votes ⟨c.userId, 1, c.now⟩))
                existing.addedBy existing.createdAt),
              some (PlanningSession.mk s.id s.creator s.adminUserId s.description
                s.participants
                (upsertKeyword s.keywords
                  (Keyword.mk existing.id existing.text existing.category
                    (upsertVote existing.votes ⟨c.userId, 1, c.now⟩)
                    (sumVotes (upsertVote existing.votes ⟨c.userId, 1, c.now⟩))
                    existing.addedBy existing.createdAt))
                s.consensus s.status s.createdAt s.expiresAt)) := by
          rw [addKeyword]
          rw [if_neg (by simp [hid]), if_neg (by simp [hu]), if_neg (by simp [hv])]
          dsimp only
          rw [hfind]
        rw [he]
        have htexts : (upsertKeyword s.keywords
            (Keyword.mk existing.id existing.text existing.category
              (upsertVote existing.votes ⟨c.userId, 1, c.now⟩)
              (sumVotes (upsertVote existing.votes ⟨c.userId, 1, c.now⟩))
              existing.addedBy existing.createdAt)).map Keyword.text =
            s.keywords.map Keyword.text := by
          apply upsertKeyword_texts_of_uniq hmemex
          · intro w hw hww
            exact List.inj_on_of_nodup_map hndid hw hmemex hww
          · rfl
          · rfl
        have hids : (upsertKeyword s.keywords
            (Keyword.mk existing.id existing.text existing.category
              (upsertVote existing.votes ⟨c.userId, 1, c.now⟩)
              (sumVotes (upsertVote existing.votes ⟨c.userId, 1, c.now⟩))
              existing.addedBy existing.createdAt)).map Keyword.id =
            s.keywords.map Keyword.id := by
          apply upsertKeyword_ids_of_mem
          rw [List.any_eq_true]
          exact ⟨existing, hmemex, by simp⟩
        obtain ⟨s', hrun, hsid, hspart, hsnorm, hsnd, hsndid, hstexts, hsids⟩ :=
          runAdds_spec sessionId rest
            (PlanningSession.mk s.id s.creator s.adminUserId s.description
              s.participants
              (upsertKeyword s.keywords
                (Keyword.mk existing.id existing.text existing.category
                  (upsertVote existing.votes ⟨c.userId, 1, c.now⟩)
                  (sumVotes (upsertVote existing.votes ⟨c.userId, 1, c.now⟩))
                  existing.addedBy existing.createdAt))
              s.consensus s.status s.createdAt s.expiresAt)
            hid
            (fun c' hc' => husers c' (List.mem_cons_of_mem c hc'))
            (by
              have := hkidsnd
              rw [List.map_cons] at this
              exact this.of_cons)
            (fun c' hc' => by
              show c'.newKeywordId ∉ _
              rw [show (PlanningSession.mk s.id s.creator s.adminUserId s.description
                s.participants (upsertKeyword s.keywords
                  (Keyword.mk existing.id existing.text existing.category
                    (upsertVote existing.votes ⟨c.userId, 1, c.now⟩)
                    (sumVotes (upsertVote existing.votes ⟨c.userId, 1, c.now⟩))
                    existing.addedBy existing.createdAt))
                s.consensus s.status s.createdAt s.expiresAt).keywords =
                upsertKeyword s.keywords
                  (Keyword.mk existing.id existing.text existing.category
                    (upsertVote existing.votes ⟨c.userId, 1, c.now⟩)
                    (sumVotes (upsertVote existing.votes ⟨c.userId, 1, c.now⟩))
                    existing.addedBy existing.createdAt) from rfl, hids]
              exact hfresh c' (List.mem_cons_of_mem c hc'))
            (fun k hk => by
              rcases mem_upsertKeyword hk with h1 | h1
              · rw [h1]
                show normalizeTag existing.text = existing.text
                exact hnorm existing hmemex
              · exact hnorm k h1)
            (by
              show ((upsertKeyword _ _).map Keyword.text).Nodup
              rw [htexts]
              exact hnd)
            (by
              show ((upsertKeyword _ _).map Keyword.id).Nodup
              rw [hids]
              exact hndid)
        refine ⟨s', hrun, hsid, hspart, hsnorm, hsnd, hsndid, ?_, ?_⟩
        · intro x
          rw [hstexts x]
          rw [show (PlanningSession.mk s.id s.creator s.adminUserId s.description
            s.participants (upsertKeyword s.keywords
              (Keyword.mk existing.id existing.text existing.category
                (upsertVote existing.votes ⟨c.userId, 1, c.now⟩)
                (sumVotes (upsertVote existing.votes ⟨c.userId, 1, c.now⟩))
                existing.addedBy existing.createdAt))
            s.consensus s.status s.createdAt s.expiresAt).keywords =
            upsertKeyword s.keywords
              (Keyword.mk existing.id existing.text existing.category
                (upsertVote existing.votes ⟨c.userId, 1, c.now⟩)
                (sumVotes (upsertVote existing.votes ⟨c.userId, 1, c.now⟩))
                existing.addedBy existing.createdAt) from rfl, htexts]
          have hnormc : normalizeTag c.text ∈ s.keywords.map Keyword.text := by
            rw [List.mem_map]
            refine ⟨existing, hmemex, ?_⟩
            rw [← hpredex]
            exact (hnorm existing hmemex).symm
          rw [List.filter_cons]
          simp only [hv, if_true, List.map_cons, List.mem_cons]
          constructor
          · rintro (h1 | h1)
            · exact Or.inl h1
            · exact Or.inr (Or.inr h1)
          · rintro (h1 | h1 | h1)
            · exact Or.inl h1
            · exact Or.inl (h1 ▸ hnormc)
            · exact Or.inr h1
        · intro i hi
          rcases hsids i hi with h1 | h1
          · rw [show (PlanningSession.mk s.id s.creator s.adminUserId s.description
              s.participants (upsertKeyword s.keywords
                (Keyword.mk existing.id existing.text existing.category
                  (upsertVote existing.votes ⟨c.userId, 1, c.now⟩)
                  (sumVotes (upsertVote existing.votes ⟨c.userId, 1, c.now⟩))
                  existing.addedBy existing.createdAt))
              s.consensus s.status s.createdAt s.expiresAt).keywords =
              upsertKeyword s.keywords
                (Keyword.mk existing.id existing.text existing.category
                  (upsertVote existing.votes ⟨c.userId, 1, c.now⟩)
                  (sumVotes (upsertVote existing.votes ⟨c.userId, 1, c.now⟩))
                  existing.addedBy existing.createdAt) from rfl, hids] at h1
            exact Or.inl h1
          · exact Or.inr (List.mem_cons_of_mem _ h1)
      | none =>
        have hanyf : s.keywords.any (fun w => w.id ==
            (Keyword.mk c.newKeywordId (normalizeTag c.text) c.category [] 0
              c.userId c.now).id) = false := by
          have hf := hfresh c (List.mem_cons_self c rest)
          by_contra hcon
          rw [Bool.not_eq_false, List.any_eq_true] at hcon
          obtain ⟨w, hw, hww⟩ := hcon
          apply hf
          rw [List.mem_map]
          exact ⟨w, hw, by simpa using hww⟩
        have he : addKeyword (some s) sessionId c.userId c.text c.category
            c.newKeywordId c.now =
            (some (Keyword.mk c.newKeywordId (normalizeTag c.text) c.category []
                0 c.userId c.now),
              some (PlanningSession.mk s.id s.creator s.adminUserId s.description
                s.participants
                (s.keywords ++ [Keyword.mk c.newKeywordId (normalizeTag c.text)
                  c.category [] 0 c.userId c.now])
                (ConsensusRecord.mk s.consensus.finalized
                  (s.consensus.pending ++ [c.newKeywordId]))
                s.status s.createdAt s.expiresAt)) := by
          rw [addKeyword]
          rw [if_neg (by simp [hid]), if_neg (by simp [hu]), if_neg (by simp [hv])]
          dsimp only
          rw [hfind, upsertKeyword_of_not_mem hanyf]
        rw [he]
        have hnewtext : normalizeTag c.text ∉ s.keywords.map Keyword.text := by
          intro hcon
          rw [List.mem_map] at hcon
          obtain ⟨w, hw, hww⟩ := hcon
          have := List.find?_eq_none.mp hfind w hw
          apply this
          rw [hnorm w hw, hww]
          simp
        obtain ⟨s', hrun, hsid, hspart, hsnorm, hsnd, hsndid, hstexts, hsids⟩ :=
          runAdds_spec sessionId rest
            (PlanningSession.mk s.id s.creator s.adminUserId s.description
              s.participants
              (s.keywords ++ [Keyword.mk c.newKeywordId (normalizeTag c.text)
                c.category [] 0 c.userId c.now])
              (ConsensusRecord.mk s.consensus.finalized
                (s.consensus.pending ++ [c.newKeywordId]))
              s.status s.createdAt s.expiresAt)
            hid
            (fun c' hc' => husers c' (List.mem_cons_of_mem c hc'))
            (by
              have := hkidsnd
              rw [List.map_cons] at this
              exact this.of_cons)
            (fun c' hc' => by
              show c'.newKeywordId ∉ (s.keywords ++ [_]).map Keyword.id
              rw [List.map_append]
              rw [List.mem_append]
              rintro (h1 | h1)
              · exact hfresh c' (List.mem_cons_of_mem c hc') h1
              · simp at h1
                have hkn := hkidsnd
                rw [List.map_cons, List.nodup_cons] at hkn
                apply hkn.1
                rw [← h1, List.mem_map]
                exact ⟨c', hc', rfl⟩)
            (fun k hk => by
              rcases List.mem_append.mp hk with h1 | h1
              · exact hnorm k h1
              · simp at h1
                rw [h1]
                show normalizeTag (normalizeTag c.text) = normalizeTag c.text
                exact normalizeTag_idem_aux c.text)
            (by
              show ((s.keywords ++ [_]).map Keyword.text).Nodup
              rw [List.map_append]
              rw [List.nodup_append]
              refine ⟨hnd, by simp, ?_⟩
              intro x hx hx2
              simp at hx2
              rw [hx2] at hx
              exact hnewtext hx)
            (by
              show ((s.keywords ++ [_]).map Keyword.id).Nodup
              rw [List.map_append]
              rw [List.nodup_append]
              refine ⟨hndid, by simp, ?_⟩
              intro x hx hx2
              simp at hx2
              rw [hx2] at hx
              exact hfresh c (List.mem_cons_self c rest) hx)
        refine ⟨s', hrun, hsid, hspart, hsnorm, hsnd, hsndid, ?_, ?_⟩
        · intro x
          rw [hstexts x]
          rw [show (PlanningSession.mk s.id s.creator s.adminUserId s.description
            s.participants (s.keywords ++ [Keyword.mk c.newKeywordId
              (normalizeTag c.text) c.category [] 0 c.userId c.now])
            (ConsensusRecord.mk s.consensus.finalized
              (s.consensus.pending ++ [c.newKeywordId]))
            s.status s.createdAt s.expiresAt).keywords =
            s.keywords ++ [Keyword.mk c.newKeywordId (normalizeTag c.text)
              c.category [] 0 c.userId c.now] from rfl]
          rw [List.map_append, List.filter_cons]
          simp only [hv, if_true, List.map_cons, List.mem_cons, List.mem_append]
          constructor
          · rintro ((h1 | h1) | h1)
            · exact Or.inl h1
            · simp at h1
              exact Or.inr (Or.inl h1)
            · exact Or.inr (Or.inr h1)
          · rintro (h1 | h1 | h1)
            · exact Or.inl (Or.inl h1)
            · exact Or.inl (Or.inr (by simp [h1]))
            · exact Or.inr h1
        · intro i hi
          rcases hsids i hi with h1 | h1
          · rw [show (PlanningSession.mk s.id s.creator s.adminUserId s.description
              s.participants (s.keywords ++ [Keyword.mk c.newKeywordId
                (normalizeTag c.text) c.category [] 0 c.userId c.now])
              (ConsensusRecord.mk s.consensus.finalized
                (s.consensus.pending ++ [c.newKeywordId]))
              s.status s.createdAt s.expiresAt).keywords =
              s.keywords ++ [Keyword.mk c.newKeywordId (normalizeTag c.text)
                c.category [] 0 c.userId c.now] from rfl, List.map_append] at h1
            rcases List.mem_append.mp h1 with h2 | h2
            · exact Or.inl h2
            · simp at h2
              exact Or.inr (by simp [h2])
          · exact Or.inr (List.mem_cons_of_mem _ h1)
    · have hv' : (validateTag c.text).isValid = false := by
        simpa using hv
      rw [addKeyword_invalid_state (some s) sessionId c.userId c.text c.category
        c.newKeywordId c.now hv']
      obtain ⟨s', hrun, hsid, hspart, hsnorm, hsnd, hsndid, hstexts, hsids⟩ :=
        runAdds_spec sessionId rest s hid
          (fun c' hc' => husers c' (List.mem_cons_of_mem c hc'))
          (by
            have := hkidsnd
            rw [List.map_cons] at this
            exact this.of_cons)
          (fun c' hc' => hfresh c' (List.mem_cons_of_mem c hc'))
          hnorm hnd hndid
      refine ⟨s', hrun, hsid, hspart, hsnorm, hsnd, hsndid, ?_, ?_⟩
      · intro x
        rw [hstexts x, List.filter_cons]
        simp only [hv', Bool.false_eq_true, if_false]
      · intro i hi
        rcases hsids i hi with h1 | h1
        · exact Or.inl h1
        · exact Or.inr (List.mem_cons_of_mem _ h1)

/-- C2 (counterexample): the claim counts every submission, but a
submission that fails tag validation (here `"Coffee Shop"`, which contains
a space) is rejected and creates no tag: after that single `addTag` call
the session has `0` tags while the number of distinct normalized texts
submitted is `1`. -/
theorem addTag_dedup_cex :
    keywordCountOf (runAdds (some exampleSession1) "current"
      [⟨"u1", "Coffee Shop", Category.food, "kA", 1⟩]) = 0 ∧
    ((([⟨"u1", "Coffee Shop", Category.food, "kA", 1⟩] : List AddCall).map
      (fun c => normalizeTag c.text)).dedup.length) = 1 := by
  decide

/-- C2 (amended): for every sequence of `addTag` calls by participants of
the session, the number of distinct tags equals the number of distinct
normalized texts among the calls that pass tag validation (invalid texts
are rejected and create no tag); submission order and casing/spacing
variants that normalize identically do not matter. -/
theorem addTag_dedup_count (s0 : PlanningSession) (calls : List AddCall)
    (hkw0 : s0.keywords = [])
    (husers : ∀ c ∈ calls, s0.participants.any (fun p => p.id == c.userId) = true)
    (hkids : (calls.map AddCall.newKeywordId).Nodup) :
    keywordCountOf (runAdds (some s0) s0.id calls) =
      ((calls.filter (fun c => (validateTag c.text).isValid)).map
        (fun c => normalizeTag c.text)).dedup.length := by
  obtain ⟨s', hrun, _, _, _, hsnd, _, hstexts, _⟩ :=
    runAdds_spec s0.id calls s0 rfl husers hkids
      (fun c _ => by rw [hkw0]; simp)
      (fun k hk => by rw [hkw0] at hk; simp at hk)
      (by rw [hkw0]; simp)
      (by rw [hkw0]; simp)
  rw [hrun]
  show s'.keywords.length = _
  have hmemiff : ∀ x, x ∈ s'.keywords.map Keyword.text ↔
      x ∈ (calls.filter (fun c => (validateTag c.text).isValid)).map
        (fun c => normalizeTag c.text) := by
    intro x
    rw [hstexts x, hkw0]
    simp
  have hfin : (s'.keywords.map Keyword.text).toFinset =
      ((calls.filter (fun c => (validateTag c.text).isValid)).map
        (fun c => normalizeTag c.text)).toFinset := by
    apply Finset.ext
    intro x
    rw [List.mem_toFinset, List.mem_toFinset]
    exact hmemiff x
  have h1 : s'.keywords.length = (s'.keywords.map Keyword.text).length :=
    (List.length_map _ _).symm
  rw [h1, ← List.toFinset_card_of_nodup hsnd, hfin, List.card_toFinset]

/-- C2 (amended) witness: submitting `"Coffee Shop"` (rejected by
validation) and then `"coffee-shop"` yields exactly one tag, matching one
distinct valid normalized text. -/
theorem addTag_dedup_count_witness :
    keywordCountOf (runAdds (some exampleSession1) exampleSession1.id
      [⟨"u1", "Coffee Shop", Category.food, "kA", 1⟩,
        ⟨"u1", "coffee-shop", Category.food, "kB", 2⟩]) = 1 := by
  have h := addTag_dedup_count exampleSession1
    [⟨"u1", "Coffee Shop", Category.food, "kA", 1⟩,
      ⟨"u1", "coffee-shop", Category.food, "kB", 2⟩]
    (by decide) (by decide) (by decide)
  rw [h]
  decide

/-- One session-preserving operation never removes a finalized tag id from
`consensus.finalized`, never puts it back into `consensus.pending`, and
keeps it in the keyword map. -/
theorem sessionStep_ratchet {st st' : Option PlanningSession}
    (h : SessionStep st st') (kid : String)
    (hfin : kid ∈ finalizedOf st) (hpen : kid ∉ pendingOf st)
    (hkw : kid ∈ keywordIdsOf st) :
    kid ∈ finalizedOf st' ∧ kid ∉ pendingOf st' ∧ kid ∈ keywordIdsOf st' := by
  cases h with
  | join sid name uid code now hidf hcodef =>
    cases st with
    | none => simp [finalizedOf] at hfin
    | some s =>
      rcases joinSession_cases s sid name uid code now with h1 | h1 <;> rw [h1]
      · exact ⟨hfin, hpen, hkw⟩
      · exact ⟨hfin, hpen, hkw⟩
  | rejoin sid code =>
    rw [rejoinSession_state]
    exact ⟨hfin, hpen, hkw⟩
  | addKeyword sid uid text cat kidN now hkidf =>
    cases st with
    | none => simp [finalizedOf] at hfin
    | some s =>
      rcases addKeyword_cases s sid uid text cat kidN now with h1 | ⟨ex, hfind, h1⟩ | ⟨hfind, h1⟩
      · rw [h1]
        exact ⟨hfin, hpen, hkw⟩
      · rw [h1]
        refine ⟨hfin, hpen, ?_⟩
        show kid ∈ (upsertKeyword s.keywords _).map Keyword.id
        rw [upsertKeyword_ids_of_mem (by
          rw [List.any_eq_true]
          exact ⟨ex, List.mem_of_find?_eq_some hfind, by simp⟩)]
        exact hkw
      · rw [h1]
        have hne : kid ≠ kidN := by
          intro hc
          apply hkidf s rfl
          rw [← hc]
          exact hkw
        have hanyf : s.keywords.any (fun w => w.id ==
            (Keyword.mk kidN (normalizeTag text) cat [] 0 uid now).id) = false := by
          by_contra hcon
          rw [Bool.not_eq_false, List.any_eq_true] at hcon
          obtain ⟨w, hw, hww⟩ := hcon
          apply hkidf s rfl
          rw [List.mem_map]
          exact ⟨w, hw, by simpa using hww⟩
        refine ⟨hfin, ?_, ?_⟩
        · show kid ∉ s.consensus.pending ++ [kidN]
          rw [List.mem_append]
          rintro (h2 | h2)
          · exact hpen h2
          · simp at h2
            exact hne h2
        · show kid ∈ (upsertKeyword s.keywords _).map Keyword.id
          rw [upsertKeyword_of_not_mem hanyf, List.map_append, List.mem_append]
          exact Or.inl hkw
  | vote sid uid kidV v now =>
    cases st with
    | none => simp [finalizedOf] at hfin
    | some s =>
      rcases vote_cases s sid uid kidV v now with h1 | ⟨k, hfind, h1⟩
      · rw [h1]
        exact ⟨hfin, hpen, hkw⟩
      · rw [h1]
        have hids : kid ∈ ({ s with keywords := upsertKeyword s.keywords { k with
            votes := upsertVote k.votes ⟨uid, v, now⟩,
            totalScore := sumVotes (upsertVote k.votes ⟨uid, v, now⟩) } } :
              PlanningSession).keywords.map Keyword.id := by
          show kid ∈ (upsertKeyword s.keywords _).map Keyword.id
          rw [upsertKeyword_ids_of_mem (by
            rw [List.any_eq_true]
            exact ⟨k, List.mem_of_find?_eq_some hfind, by simp⟩)]
          exact hkw
        rcases checkConsensus_cases { s with keywords := upsertKeyword s.keywords { k with
            votes := upsertVote k.votes ⟨uid, v, now⟩,
            totalScore := sumVotes (upsertVote k.votes ⟨uid, v, now⟩) } } kidV with
          h2 | ⟨hp2, h2⟩
        · rw [h2]
          exact ⟨hfin, hpen, hids⟩
        · rw [h2]
          refine ⟨?_, ?_, hids⟩
          · show kid ∈ s.consensus.finalized ++ [kidV]
            rw [List.mem_append]
            exact Or.inl hfin
          · show kid ∉ s.consensus.pending.erase kidV
            intro hc
            exact hpen (List.mem_of_mem_erase hc)

/-- C5: finalization is a one-way ratchet: once a tag id is in
`consensus.finalized` (and out of `consensus.pending`), any sequence of
subsequent `vote`, `addTag`, `join` or `rejoin` operations leaves it
finalized and never returns it to pending — no matter how later votes
change its ratios. -/
theorem finalized_ratchet (st st' : Option PlanningSession) (kid : String)
    (hev : Evolves st st')
    (hfin : kid ∈ finalizedOf st) (hpen : kid ∉ pendingOf st)
    (hkw : kid ∈ keywordIdsOf st) :
    kid ∈ finalizedOf st' ∧ kid ∉ pendingOf st' := by
  have hmain : kid ∈ finalizedOf st' ∧ kid ∉ pendingOf st' ∧ kid ∈ keywordIdsOf st' := by
    induction hev with
    | refl => exact ⟨hfin, hpen, hkw⟩
    | tail hsteps hstep ih =>
      exact sessionStep_ratchet hstep kid ih.1 ih.2.1 ih.2.2
  exact ⟨hmain.1, hmain.2.1⟩

/-- C5 witness: a later `-1` vote on the finalized tag `k1` (which drops
its ratios below every threshold) leaves it finalized and not pending. -/
theorem finalized_ratchet_witness :
    "k1" ∈ finalizedOf (vote (some exampleSessionFin) "current" "u1" "k1" (-1) 7).2 ∧
    "k1" ∉ pendingOf (vote (some exampleSessionFin) "current" "u1" "k1" (-1) 7).2 := by
  have hev : Evolves (some exampleSessionFin)
      (vote (some exampleSessionFin) "current" "u1" "k1" (-1) 7).2 :=
    Relation.ReflTransGen.single
      (SessionStep.vote (some exampleSessionFin) "current" "u1" "k1" (-1) 7)
  exact finalized_ratchet (some exampleSessionFin) _ "k1" hev
    (by decide) (by decide) (by decide)

/-- Session-preserving operations keep the session present, `active`, with
id `current`, preserve any existing participant record, and never reuse its
user code (by the generator contracts carried on the step relation). -/
theorem sessionStep_creator_stable {st st' : Option PlanningSession}
    (h : SessionStep st st') (pc : Participant)
    (hinv : ∃ s, st = some s ∧ s.id = "current" ∧
      s.status = SessionStatus.active ∧ pc ∈ s.participants ∧
      (∀ q ∈ s.participants, q.userCode = pc.userCode → q = pc)) :
    ∃ s', st' = some s' ∧ s'.id = "current" ∧
      s'.status = SessionStatus.active ∧ pc ∈ s'.participants ∧
      (∀ q ∈ s'.participants, q.userCode = pc.userCode → q = pc) := by
  obtain ⟨s, hs, hid, hstat, hmem, huniq⟩ := hinv
  cases h with
  | join sid name uid code now hidf hcodef =>
    subst hs
    rcases joinSession_cases s sid name uid code now with h1 | h1 <;> rw [h1]
    · exact ⟨s, rfl, hid, hstat, hmem, huniq⟩
    · have hidfree := hidf s rfl
      have hcodefree := hcodef s rfl
      have happ : upsertParticipant s.participants ⟨uid, jsTrim name, code, now, false, false⟩ =
          s.participants ++ [⟨uid, jsTrim name, code, now, false, false⟩] := by
        unfold upsertParticipant
        rw [if_neg]
        intro hcon
        rw [List.any_eq_true] at hcon
        obtain ⟨w, hw, hww⟩ := hcon
        apply hidfree
        rw [List.mem_map]
        exact ⟨w, hw, by simpa using hww⟩
      refine ⟨_, rfl, hid, hstat, ?_, ?_⟩
      · show pc ∈ upsertParticipant s.participants _
        rw [happ, List.mem_append]
        exact Or.inl hmem
      · intro q hq hqc
        rw [happ, List.mem_append] at hq
        rcases hq with h2 | h2
        · exact huniq q h2 hqc
        · simp at h2
          exfalso
          apply hcodefree
          rw [List.mem_map]
          refine ⟨pc, hmem, ?_⟩
          rw [← hqc, h2]
  | rejoin sid code =>
    rw [rejoinSession_state]
    exact ⟨s, hs, hid, hstat, hmem, huniq⟩
  | addKeyword sid uid text cat kidN now hkidf =>
    subst hs
    rcases addKeyword_cases s sid uid text cat kidN now with h1 | ⟨ex, _, h1⟩ | ⟨_, h1⟩ <;>
      rw [h1]
    · exact ⟨s, rfl, hid, hstat, hmem, huniq⟩
    · exact ⟨_, rfl, hid, hstat, hmem, huniq⟩
    · exact ⟨_, rfl, hid, hstat, hmem, huniq⟩
  | vote sid uid kidV v now =>
    subst hs
    rcases vote_cases s sid uid kidV v now with h1 | ⟨k, _, h1⟩ <;> rw [h1]
    · exact ⟨s, rfl, hid, hstat, hmem, huniq⟩
    · rcases checkConsensus_cases { s with keywords := upsertKeyword s.keywords { k with
          votes := upsertVote k.votes ⟨uid, v, now⟩,
          totalScore := sumVotes (upsertVote k.votes ⟨uid, v, now⟩) } } kidV with
        h2 | ⟨_, h2⟩ <;> rw [h2]
      · exact ⟨_, rfl, hid, hstat, hmem, huniq⟩
      · exact ⟨_, rfl, hid, hstat, hmem, huniq⟩

/-- Any number of session-preserving operations preserves the creator's
record and the uniqueness of their code. -/
theorem evolves_creator_stable {st st' : Option PlanningSession}
    (hev : Evolves st st') (pc : Participant)
    (hinv : ∃ s, st = some s ∧ s.id = "current" ∧
      s.status = SessionStatus.active ∧ pc ∈ s.participants ∧
      (∀ q ∈ s.participants, q.userCode = pc.userCode → q = pc)) :
    ∃ s', st' = some s' ∧ s'.id = "current" ∧
      s'.status = SessionStatus.active ∧ pc ∈ s'.participants ∧
      (∀ q ∈ s'.participants, q.userCode = pc.userCode → q = pc) := by
  induction hev with
  | refl => exact hinv
  | tail hsteps hstep ih => exact sessionStep_creator_stable hstep pc ih

/-- C9: `rejoinSession` mutates nothing (its state component is the input
state, for every input), and after `createSession` returns `(uid, code)`,
any later `rejoinSession` with that code — across any sequence of joins,
votes and tag additions while the session lives — returns the same
participant id with `isCreator = true`. -/
theorem rejoin_pure_and_stable :
    (∀ (st : Option PlanningSession) (sessionId userCode : String),
      (rejoinSession st sessionId userCode).2 = st) ∧
    (∀ (st0 : Option PlanningSession) (d cn uid code : String) (now : Nat)
      (res : String × String × String) (st1 st' : Option PlanningSession),
      createSession st0 d cn uid code now = (Except.ok res, st1) →
      Evolves st1 st' →
      (rejoinSession st' "current" code).1.userId = uid ∧
      (rejoinSession st' "current" code).1.success = true ∧
      (rejoinSession st' "current" code).1.userData =
        some ⟨jsTrim cn, true, true⟩) := by
  constructor
  · exact rejoinSession_state
  · intro st0 d cn uid code now res st1 st' hc hev
    obtain ⟨hres, hst1⟩ := createSession_ok hc
    have hinv1 : ∃ s, st1 = some s ∧ s.id = "current" ∧
        s.status = SessionStatus.active ∧
        (⟨uid, jsTrim cn, code, now, true, true⟩ : Participant) ∈ s.participants ∧
        (∀ q ∈ s.participants,
          q.userCode = (⟨uid, jsTrim cn, code, now, true, true⟩ : Participant).userCode →
          q = ⟨uid, jsTrim cn, code, now, true, true⟩) := by
      refine ⟨_, hst1, rfl, rfl, by simp, ?_⟩
      intro q hq _
      simpa using hq
    obtain ⟨s', hs', hsid, hstat, hmem, huniq⟩ :=
      evolves_creator_stable hev ⟨uid, jsTrim cn, code, now, true, true⟩ hinv1
    have hfind : s'.participants.find? (fun p => p.userCode == code) =
        some ⟨uid, jsTrim cn, code, now, true, true⟩ := by
      apply find?_eq_of_unique _ _ _ hmem (by simp)
      intro b hb hpb
      exact huniq b hb (by simpa using hpb)
    rw [hs']
    show ((rejoinSession (some s') "current" code).1.userId = uid ∧ _)
    rw [rejoinSession]
    rw [if_neg (by simp [hsid]), if_neg (by simp [hstat]), hfind]
    exact ⟨rfl, rfl, rfl⟩

/-- C9 witness: create a session as Sarah (`u1`, code `101`), let Mike
join, then rejoin with code `101`: the original identity comes back with
`isCreator = true`, and a standalone `rejoinSession` leaves the state
untouched. -/
theorem rejoin_pure_and_stable_witness :
    (rejoinSession (some exampleSession5) "current" "103").2 = some exampleSession5 ∧
    (rejoinSession (joinSession (createSession none "weekend brunch" "Sarah" "u1"
        "101" 0).2 "current" "Mike" "u2" "102" 1).2 "current" "101").1.userId = "u1" ∧
    (rejoinSession (joinSession (createSession none "weekend brunch" "Sarah" "u1"
        "101" 0).2 "current" "Mike" "u2" "102" 1).2 "current" "101").1.success = true ∧
    ((rejoinSession (joinSession (createSession none "weekend brunch" "Sarah" "u1"
        "101" 0).2 "current" "Mike" "u2" "102" 1).2 "current" "101").1.userData.map
      RejoinUserData.isCreator) = some true := by
  have h1 := rejoin_pure_and_stable.1 (some exampleSession5) "current" "103"
  have hev : Evolves (createSession none "weekend brunch" "Sarah" "u1" "101" 0).2
      (joinSession (createSession none "weekend brunch" "Sarah" "u1" "101" 0).2
        "current" "Mike" "u2" "102" 1).2 :=
    Relation.ReflTransGen.single
      (SessionStep.join (createSession none "weekend brunch" "Sarah" "u1" "101" 0).2
        "current" "Mike" "u2" "102" 1
        (by
          intro s hs
          rw [← Option.some.inj hs]
          decide)
        (by
          intro s hs
          rw [← Option.some.inj hs]
          decide))
  have h2 := rejoin_pure_and_stable.2 none "weekend brunch" "Sarah" "u1" "101" 0
    ("current", "u1", "101") (createSession none "weekend brunch" "Sarah" "u1" "101" 0).2
    (joinSession (createSession none "weekend brunch" "Sarah" "u1" "101" 0).2
      "current" "Mike" "u2" "102" 1).2
    rfl hev
  refine ⟨h1, h2.1, h2.2.1, ?_⟩
  rw [h2.2.2]
  decide

/-- `createSession` either leaves the state alone (invalid creator name) or
installs the freshly built active session. -/
theorem createSession_cases (st : Option PlanningSession)
    (d cn uid code : String) (now : Nat) :
    (createSession st d cn uid code now).2 = st ∨
    (createSession st d cn uid code now).2 =
      some ⟨"current", uid, uid, d, [⟨uid, jsTrim cn, code, now, true, true⟩],
        [], ⟨[], []⟩, .active, now, now + 24 * 60 * 60 * 1000⟩ := by
  rw [createSession]
  split
  · exact Or.inl rfl
  · exact Or.inr rfl

/-- None of the `validateUserName` rejection messages is the inactive-session
message. -/
theorem validateUserName_error_ne (name : String) :
    (validateUserName name).error ≠ some "Session is not active" := by
  rw [validateUserName]
  split_ifs <;> decide

/-- The name-taken message of `joinSession` starts with `N`, so it is never
the inactive-session message. -/
theorem name_taken_msg_ne (x : String) :
    ("Name \"" ++ x ++
      "\" is already taken in this session. Please choose a different name.") ≠
      "Session is not active" := by
  intro hcon
  have h := congrArg (fun t => t.data.head?) hcon
  simp only [String.data_append] at h
  simp at h

/-- The unknown-code message of `rejoinSession` starts with `U`, so it is
never the inactive-session message. -/
theorem usercode_msg_ne (x : String) :
    ("User code \"" ++ x ++
      "\" not found in this session. Please check your code or join as a new participant.") ≠
      "Session is not active" := by
  intro hcon
  have h := congrArg (fun t => t.data.head?) hcon
  simp only [String.data_append] at h
  simp at h

/-- If every present session is active, `joinSession` never reports the
inactive-session error. -/
theorem joinSession_no_inactive_error (st : Option PlanningSession)
    (hact : ∀ s, st = some s → s.status = SessionStatus.active)
    (sessionId name uid code : String) (now : Nat) :
    (joinSession st sessionId name uid code now).1.error ≠
      some "Session is not active" := by
  cases st with
  | none => rw [joinSession]; decide
  | some s =>
    have hs := hact s rfl
    rw [joinSession]
    dsimp only
    split
    · intro hcon
      exact absurd (Option.some.inj hcon) (by decide)
    · split
      · next h2 => exact absurd hs h2
      · split
        · exact validateUserName_error_ne name
        · split
          · intro hcon
            exact name_taken_msg_ne (jsTrim name) (Option.some.inj hcon)
          · intro hcon
            exact Option.noConfusion hcon

/-- If every present session is active, `rejoinSession` never reports the
inactive-session error. -/
theorem rejoinSession_no_inactive_error (st : Option PlanningSession)
    (hact : ∀ s, st = some s → s.status = SessionStatus.active)
    (sessionId userCode : String) :
    (rejoinSession st sessionId userCode).1.error ≠
      some "Session is not active" := by
  cases st with
  | none => rw [rejoinSession]; decide
  | some s =>
    have hs := hact s rfl
    rw [rejoinSession]
    split
    · intro hcon
      exact absurd (Option.some.inj hcon) (by decide)
    · split
      · next h2 => exact absurd hs h2
      · split
        · intro hcon
          exact usercode_msg_ne userCode (Option.some.inj hcon)
        · intro hcon
          exact Option.noConfusion hcon

/-- C10: in every reachable store state, an existing session has status
`active` (no store operation ever sets `completed` or `expired`), so the
`Session is not active` failure branches of `joinSession` and
`rejoinSession` are unreachable: no call made on a reachable state returns
that error. -/
theorem status_always_active (st : Option PlanningSession) (h : Reachable st) :
    (∀ s, st = some s → s.status = SessionStatus.active) ∧
    (∀ sessionId name uid code now,
      (joinSession st sessionId name uid code now).1.error ≠
        some "Session is not active") ∧
    (∀ sessionId userCode,
      (rejoinSession st sessionId userCode).1.error ≠
        some "Session is not active") := by
  have hinv : ∀ s, st = some s → s.status = SessionStatus.active := by
    induction h with
    | init =>
      intro s hs
      simp at hs
    | create st0 d cn uid code now _ ih =>
      intro s hs
      rcases createSession_cases st0 d cn uid code now with h1 | h1 <;> rw [h1] at hs
      · exact ih s hs
      · injection hs with hs
        rw [← hs]
    | join st0 sid name uid code now _ ih =>
      intro s hs
      cases st0 with
      | none =>
        rw [joinSession_none] at hs
        simp at hs
      | some s0 =>
        rcases joinSession_cases s0 sid name uid code now with h1 | h1 <;>
          rw [h1] at hs <;> injection hs with hs <;> rw [← hs]
        · exact ih s0 rfl
        · exact ih s0 rfl
    | rejoin st0 sid ucode _ ih =>
      intro s hs
      rw [rejoinSession_state] at hs
      exact ih s hs
    | addKeyword st0 sid uid text cat kid now _ ih =>
      intro s hs
      cases st0 with
      | none =>
        rw [addKeyword_none] at hs
        simp at hs
      | some s0 =>
        rcases addKeyword_cases s0 sid uid text cat kid now with
          h1 | ⟨ex, _, h1⟩ | ⟨_, h1⟩ <;>
          rw [h1] at hs <;> injection hs with hs <;> rw [← hs]
        · exact ih s0 rfl
        · exact ih s0 rfl
        · exact ih s0 rfl
    | vote st0 sid uid kid v now _ ih =>
      intro s hs
      cases st0 with
      | none =>
        rw [vote_none] at hs
        simp at hs
      | some s0 =>
        rcases vote_cases s0 sid uid kid v now with h1 | ⟨k, _, h1⟩ <;>
          rw [h1] at hs <;> injection hs with hs <;> rw [← hs]
        · exact ih s0 rfl
        · rcases checkConsensus_cases { s0 with keywords := upsertKeyword s0.keywords { k with
              votes := upsertVote k.votes ⟨uid, v, now⟩,
              totalScore := sumVotes (upsertVote k.votes ⟨uid, v, now⟩) } } kid with
            h2 | ⟨_, h2⟩ <;> rw [h2]
          · exact ih s0 rfl
          · exact ih s0 rfl
    | delete st0 sid uid _ ih =>
      intro s hs
      rcases deleteSession_cases st0 sid uid with h1 | h1 <;> rw [h1] at hs
      · exact ih s hs
      · simp at hs
    | cleanup st0 now _ ih =>
      intro s hs
      rcases cleanupExpiredSession_cases st0 now with h1 | h1 <;> rw [h1] at hs
      · exact ih s hs
      · simp at hs
  exact ⟨hinv,
    fun sessionId name uid code now =>
      joinSession_no_inactive_error st hinv sessionId name uid code now,
    fun sessionId userCode =>
      rejoinSession_no_inactive_error st hinv sessionId userCode⟩

/-- C10 witness: the state reached by one `createSession` from the empty
store carries an active session, and neither a join with a fresh name nor a
rejoin with an unknown code returns the inactive-session error there. -/
theorem status_always_active_witness :
    (joinSession (createSession none "weekend brunch" "Sarah" "u1" "101" 0).2
      "current" "Mike" "u2" "102" 1).1.error ≠ some "Session is not active" ∧
    (rejoinSession (createSession none "weekend brunch" "Sarah" "u1" "101" 0).2
      "current" "999").1.error ≠ some "Session is not active" ∧
    Option.elim (createSession none "weekend brunch" "Sarah" "u1" "101" 0).2 False
      (fun s => s.status = SessionStatus.active) := by
  have h := status_always_active
    (createSession none "weekend brunch" "Sarah" "u1" "101" 0).2
    (Reachable.create none "weekend brunch" "Sarah" "u1" "101" 0 Reachable.init)
  refine ⟨h.2.1 "current" "Mike" "u2" "102" 1, h.2.2 "current" "999", ?_⟩
  exact h.1 _ rfl

end LetsCatchup
